import Mathlib

/-!
Verification development for the HoloLang text-to-speech pipeline core.

The definitions below are a shallow embedding of the repository sources:

* `app/services/segmentation.py` — script classification, punctuation
  splitting, span building, adjacency merging, Japanese-adhesion smoothing
  and the public `segment_text` API;
* `app/clients/whisperx.py` — the leading-gap backfill of character
  alignments;
* `app/services/pipeline.py` together with `app/utils/audio.py` — the
  per-segment synthesis/alignment loop with audio-parameter reconciliation
  and global offset accumulation.

Texts are `List Char` (one entry per Unicode code point, matching Python
string indexing), times and confidence scores are `ℚ` (Python uses binary
floats; the algorithms are arithmetic-generic and are analysed over exact
rationals), and positions are `Nat` (Python ints that the program only ever
derives from string indices).  The external fastText scorer, the TTS
synthesiser, the torchaudio resampler and the WhisperX aligner are opaque
collaborators and enter as function parameters.
-/

namespace HoloLang

/-- Project language codes, the `LangCode = Literal["en", "zh", "ja"]` of
`app/models/segment.py`. -/
inductive Lang where
  | zh
  | ja
  | en
deriving DecidableEq, Repr

/-- A confidence distribution over the three project languages: the
`Dict[str, float]` values `{"zh": _, "ja": _, "en": _}` used throughout
`segmentation.py` always carry exactly these three keys. -/
structure Scores where
  zh : ℚ
  ja : ℚ
  en : ℚ
deriving DecidableEq, Repr

/-- The pluggable language scorer: abstracts `_scores_fasttext`, which wraps
the external fastText model (the model itself is an external collaborator). -/
abbrev Scorer := List Char → Scores

/-! ## Character classes

The Python code classifies characters with `regex` Unicode-property
patterns (`\p{Script=Han}`, `\p{Script=Hiragana}`, ...).  We model each
class by its principal Unicode blocks; the modelled ranges are pairwise
disjoint exactly as the real script properties are. -/

/-- Models `S_HIRA` (`\p{Script=Hiragana}`): the Hiragana block letters and
iteration marks. -/
def isHira (c : Char) : Bool :=
  let n := c.toNat
  (0x3041 ≤ n && n ≤ 0x3096) || (0x309D ≤ n && n ≤ 0x309F)

/-- Models `S_KATA` (`\p{Script=Katakana}`): Katakana, phonetic extensions
and halfwidth Katakana.  The prolonged-sound mark U+30FC and the middle dot
U+30FB are script-Common and hence excluded, as in the source regex. -/
def isKata (c : Char) : Bool :=
  let n := c.toNat
  (0x30A1 ≤ n && n ≤ 0x30FA) || (0x30FD ≤ n && n ≤ 0x30FF) ||
  (0x31F0 ≤ n && n ≤ 0x31FF) || (0xFF66 ≤ n && n ≤ 0xFF9D)

/-- Models `HIRA_OR_KATA` (`[\p{Hiragana}\p{Katakana}]`). -/
def isKanaChar (c : Char) : Bool := isHira c || isKata c

/-- Models `S_HAN` (`\p{Script=Han}`): CJK unified ideographs (base block,
extensions A and B), the ideographic number zero and compatibility
ideographs. -/
def isHan (c : Char) : Bool :=
  let n := c.toNat
  (0x4E00 ≤ n && n ≤ 0x9FFF) || (0x3400 ≤ n && n ≤ 0x4DBF) ||
  (n == 0x3007) || (0xF900 ≤ n && n ≤ 0xFAD9) || (0x20000 ≤ n && n ≤ 0x2A6DF)

/-- Models `S_LATIN` (`\p{Script=Latin}`): ASCII letters, Latin-1 letters
and the Latin extended blocks. -/
def isLatin (c : Char) : Bool :=
  let n := c.toNat
  (0x41 ≤ n && n ≤ 0x5A) || (0x61 ≤ n && n ≤ 0x7A) ||
  (0xC0 ≤ n && n ≤ 0xD6) || (0xD8 ≤ n && n ≤ 0xF6) ||
  (0xF8 ≤ n && n ≤ 0x2AF) || (0x1E00 ≤ n && n ≤ 0x1EFF)

/-- Models `S_NUM` (`\p{Number}`): ASCII and fullwidth decimal digits. -/
def isNum (c : Char) : Bool :=
  let n := c.toNat
  (0x30 ≤ n && n ≤ 0x39) || (0xFF10 ≤ n && n ≤ 0xFF19)

/-- Models `S_PUNC` (`\p{Punctuation}`, general categories P*): ASCII
punctuation (symbol characters such as `$ + < = > ~` are category S and
excluded, as in Unicode), general punctuation, CJK punctuation, the
Katakana middle dot (category Po, script Common) and fullwidth forms. -/
def isPunct (c : Char) : Bool :=
  let n := c.toNat
  (33 ≤ n && n ≤ 35) || (37 ≤ n && n ≤ 42) || (44 ≤ n && n ≤ 47) ||
  (n == 58) || (n == 59) || (n == 63) || (n == 64) ||
  (91 ≤ n && n ≤ 93) || (n == 95) || (n == 123) || (n == 125) ||
  (0x2010 ≤ n && n ≤ 0x2027) ||
  (0x3001 ≤ n && n ≤ 0x3003) || (0x3008 ≤ n && n ≤ 0x3011) ||
  (0x3014 ≤ n && n ≤ 0x301F) || (n == 0x30FB) ||
  (0xFF01 ≤ n && n ≤ 0xFF03) || (0xFF05 ≤ n && n ≤ 0xFF0A) ||
  (0xFF0C ≤ n && n ≤ 0xFF0F) || (n == 0xFF1A) || (n == 0xFF1B) ||
  (n == 0xFF1F) || (n == 0xFF20) || (0xFF3B ≤ n && n ≤ 0xFF3D) ||
  (n == 0xFF3F) || (n == 0xFF5B) || (n == 0xFF5D) ||
  (0xFF5F ≤ n && n ≤ 0xFF65)

/-- Models Python `str.isspace` for a single character. -/
def isSpace (c : Char) : Bool :=
  let n := c.toNat
  (0x9 ≤ n && n ≤ 0xD) || (0x1C ≤ n && n ≤ 0x1F) || (n == 0x20) ||
  (n == 0x85) || (n == 0xA0) || (n == 0x1680) ||
  (0x2000 ≤ n && n ≤ 0x200A) || (n == 0x2028) || (n == 0x2029) ||
  (n == 0x202F) || (n == 0x205F) || (n == 0x3000)

/-- Script buckets, the string constants returned by `_script_bucket`. -/
inductive Bucket where
  | JPN_KANA
  | HAN
  | LATIN
  | NEUTRAL
  | OTHER
deriving DecidableEq, Repr

/-- Embeds `_script_bucket` (segmentation.py): classify one character into
a script bucket, testing Kana, then Han, then Latin, then the neutral
classes. -/
def scriptBucket (c : Char) : Bucket :=
  if isHira c || isKata c then Bucket.JPN_KANA
  else if isHan c then Bucket.HAN
  else if isLatin c then Bucket.LATIN
  else if isNum c || isPunct c || isSpace c then Bucket.NEUTRAL
  else Bucket.OTHER

/-- The half-open slice `text[s:e]` of Python (for `0 ≤ s ≤ e`). -/
def slice (text : List Char) (s e : Nat) : List Char :=
  (text.drop s).take (e - s)

/-! ## Punctuation splitting -/

/-- The delimiter class of the regex `([。！？.!?，、,]+)` in
`_split_by_punctuation`. -/
def isDelim (c : Char) : Bool :=
  c == '。' || c == '！' || c == '？' || c == '.' || c == '!' || c == '?' ||
  c == '，' || c == '、' || c == ','

/-- Worker for `splitByPunctuation`: scans the rest of the text from
position `i`, where the current run started at `start` and consists of
characters of delimiter-class `cur`; closes a run whenever the class
changes.  This reproduces what the Python `finditer` loop over maximal
delimiter runs emits: the maximal constant-class runs of the text, in
order. -/
def splitByPunctAux : List Char → Nat → Nat → Bool → List (Nat × Nat)
  | [], i, start, _ => [(start, i)]
  | c :: rest, i, start, cur =>
    if isDelim c = cur then splitByPunctAux rest (i + 1) start cur
    else (start, i) :: splitByPunctAux rest (i + 1) i (isDelim c)

/-- Embeds `_split_by_punctuation` (segmentation.py): position ranges of
the maximal delimiter runs and the text chunks between them. -/
def splitByPunctuation (text : List Char) : List (Nat × Nat) :=
  match text with
  | [] => []
  | c :: rest => splitByPunctAux rest 1 0 (isDelim c)

/-! ## Language scoring helpers -/

/-- Embeds `_contains_kana` (`HIRA_OR_KATA.search`). -/
def containsKana (s : List Char) : Bool := s.any isKanaChar

/-- Embeds `S_HAN.search` applied to a chunk. -/
def containsHan (s : List Char) : Bool := s.any isHan

/-- Embeds `S_LATIN.search` applied to a chunk. -/
def containsLatin (s : List Char) : Bool := s.any isLatin

/-- Embeds `_is_pure_han` (segmentation.py): every character is Han,
punctuation or whitespace, and at least one Han character occurs. -/
def isPureHan (s : List Char) : Bool :=
  s.all (fun c => isHan c || isPunct c || isSpace c) && s.any isHan

/-- Embeds `_scores_with_context` (segmentation.py): a pure-Han chunk is
scored over the window of `ctxWindow` characters on each side when that
window contains Kana, otherwise (and for any non-pure-Han chunk) over the
bare chunk.  The source default for `context_window` is 15. -/
def scoresWithContext (S : Scorer) (chunk : List Char) (start stop : Nat)
    (fullText : List Char) (ctxWindow : Nat) : Scores :=
  if !(isPureHan chunk) then S chunk
  else
    let ctxStart := start - ctxWindow
    let ctxEnd := min fullText.length (stop + ctxWindow)
    let context := slice fullText ctxStart ctxEnd
    if containsKana context then S context else S chunk

/-! ## Spans and adjacency merging -/

/-- Embeds the internal `_Span` dataclass: a half-open range into the
source text with its text, language and confidence scores. -/
structure Span where
  start : Nat
  end_ : Nat
  text : List Char
  lang : Lang
  scores : Scores
deriving DecidableEq, Repr

/-- Embeds `max(s.items(), key=lambda kv: kv[1])[0]` over the insertion
order `zh, ja, en`: Python `max` keeps the earliest maximal entry, so a
later entry wins only when strictly greater. -/
def argmaxScores (s : Scores) : Lang :=
  if s.ja > s.zh then (if s.en > s.ja then Lang.en else Lang.ja)
  else (if s.en > s.zh then Lang.en else Lang.zh)

/-- The merge guard of `_merge_adjacent`: same language, strictly adjacent
positions, and a merged text no longer than `maxLen`. -/
def canMerge (maxLen : Nat) (a b : Span) : Prop :=
  a.lang = b.lang ∧ a.end_ = b.start ∧ a.text.length + b.text.length ≤ maxLen

instance (maxLen : Nat) (a b : Span) : Decidable (canMerge maxLen a b) := by
  unfold canMerge
  infer_instance

/-- The score blending of `_merge_adjacent`: the length-weighted average of
the two score dictionaries, with lengths `end - start` and a denominator of
1 when both lengths are zero (`total = L1 + L2 or 1`). -/
def mixScores (a b : Span) : Scores :=
  let L1 : Nat := a.end_ - a.start
  let L2 : Nat := b.end_ - b.start
  let total : ℚ := if L1 + L2 = 0 then 1 else ((L1 + L2 : Nat) : ℚ)
  { zh := (a.scores.zh * L1 + b.scores.zh * L2) / total
    ja := (a.scores.ja * L1 + b.scores.ja * L2) / total
    en := (a.scores.en * L1 + b.scores.en * L2) / total }

/-- The merged span `_Span(a.start, sp.end, a.text + sp.text, sp.lang, mix)`
built by `_merge_adjacent`. -/
def mergeSpans (a b : Span) : Span :=
  { start := a.start, end_ := b.end_, text := a.text ++ b.text,
    lang := b.lang, scores := mixScores a b }

/-- One iteration of the `_merge_adjacent` loop: merge the incoming span
into the last accumulated span when the guard holds, otherwise append it as
a new span. -/
def mergeFoldStep (maxLen : Nat) (out : List Span) (sp : Span) : List Span :=
  match out.getLast? with
  | some a =>
    if canMerge maxLen a sp then out.dropLast ++ [mergeSpans a sp]
    else out ++ [sp]
  | none => out ++ [sp]

/-- Embeds `_merge_adjacent` (segmentation.py); the source default for
`max_len` is 200. -/
def mergeAdjacent (spans : List Span) (maxLen : Nat) : List Span :=
  spans.foldl (mergeFoldStep maxLen) []

/-! ## Span building (`_segment_text_pure`, first stage) -/

/-- The heuristic language detection applied to each punctuation chunk in
`_segment_text_pure`: Kana forces `ja`, else Han forces `zh`, else Latin
forces `en`, else the fastText scores decide by argmax. -/
def detectLangScores (S : Scorer) (chunkText : List Char) : Lang × Scores :=
  if containsKana chunkText then (Lang.ja, { zh := 0, ja := 1, en := 0 })
  else if containsHan chunkText then (Lang.zh, { zh := 1, ja := 0, en := 0 })
  else if containsLatin chunkText then (Lang.en, { zh := 0, ja := 0, en := 1 })
  else
    let s := S chunkText
    (argmaxScores s, s)

/-- One iteration of the chunk loop in `_segment_text_pure`: skip blank
chunks, fold purely-punctuation chunks into the previous span (dropping
them at the very start of the text), and otherwise append a new span with
the heuristic language. -/
def buildStep (S : Scorer) (text : List Char) (acc : List Span)
    (chunk : Nat × Nat) : List Span :=
  let chunkText := slice text chunk.1 chunk.2
  if chunkText.all isSpace then acc
  else if chunkText.all isPunct then
    match acc.getLast? with
    | some a => acc.dropLast ++ [{ a with text := a.text ++ chunkText, end_ := chunk.2 }]
    | none => acc
  else
    let ls := detectLangScores S chunkText
    acc ++ [{ start := chunk.1, end_ := chunk.2, text := chunkText,
              lang := ls.1, scores := ls.2 }]

/-- The `all_spans` list built by the first stage of `_segment_text_pure`. -/
def allSpansOf (S : Scorer) (text : List Char) : List Span :=
  (splitByPunctuation text).foldl (buildStep S text) []

/-! ## Japanese-adhesion smoothing (`_smooth_ja_adhesion`) -/

/-- Placeholder used for out-of-range list reads; every access below is in
range, mirroring the bounds of the Python index loops. -/
def dummySpan : Span :=
  { start := 0, end_ := 0, text := [], lang := Lang.en,
    scores := { zh := 0, ja := 0, en := 0 } }

/-- The rescoring window `text[max(0, start - 8) : min(len(text), end + 8)]`
used by both smoothing passes. -/
def ctxSlice (text : List Char) (s e : Nat) : List Char :=
  slice text (s - 8) (min text.length (e + 8))

/-- One iteration of the ja-zh-ja sandwich pass of `_smooth_ja_adhesion`:
an interior short `zh` span flanked by `ja` spans is relabelled `ja` and
rescored over the widened window. -/
def sandwichStep (S : Scorer) (text : List Char) (maxZhLen : Nat)
    (fx : List Span) (i : Nat) : List Span :=
  let mid := fx.getD i dummySpan
  if mid.lang = Lang.zh ∧ mid.end_ - mid.start ≤ maxZhLen
      ∧ (fx.getD (i - 1) dummySpan).lang = Lang.ja
      ∧ (fx.getD (i + 1) dummySpan).lang = Lang.ja then
    fx.set i { mid with lang := Lang.ja, scores := S (ctxSlice text mid.start mid.end_) }
  else fx

/-- One iteration of the Kana-pull pass of `_smooth_ja_adhesion`: a short
`zh` span with a `ja` neighbour whose text contains Kana is relabelled `ja`
and rescored over the widened window. -/
def kanaPullStep (S : Scorer) (text : List Char) (maxZhLen n : Nat)
    (fx : List Span) (i : Nat) : List Span :=
  let sp := fx.getD i dummySpan
  if sp.lang ≠ Lang.zh ∨ maxZhLen < sp.end_ - sp.start then fx
  else if (0 < i ∧ (fx.getD (i - 1) dummySpan).lang = Lang.ja
            ∧ containsKana (fx.getD (i - 1) dummySpan).text = true)
      ∨ (i + 1 < n ∧ (fx.getD (i + 1) dummySpan).lang = Lang.ja
            ∧ containsKana (fx.getD (i + 1) dummySpan).text = true) then
    fx.set i { sp with lang := Lang.ja, scores := S (ctxSlice text sp.start sp.end_) }
  else fx

/-- Embeds `_smooth_ja_adhesion` (segmentation.py): the sandwich pass over
interior indices `1 .. n-2`, then, when `kana_pull` is set, the Kana-pull
pass over all indices; both passes update the list in place, so later
iterations see earlier relabelings. -/
def smoothJaAdhesion (S : Scorer) (spans : List Span) (text : List Char)
    (maxZhLen : Nat) (kanaPull : Bool) : List Span :=
  if spans.isEmpty then spans
  else
    let n := spans.length
    let fixed1 := (List.range' 1 (n - 2)).foldl (sandwichStep S text maxZhLen) spans
    if kanaPull then (List.range n).foldl (kanaPullStep S text maxZhLen n) fixed1
    else fixed1

/-! ## The segmentation engine -/

/-- Embeds `_segment_text_pure` (segmentation.py): punctuation split and
span building, global merge, adhesion smoothing, final merge.  The source
defaults are `max_zh_len = 6` and `kana_pull = True`. -/
def segmentTextPure (S : Scorer) (text : List Char) (maxZhLen : Nat)
    (kanaPull : Bool) : List Span :=
  let merged := mergeAdjacent (allSpansOf S text) 200
  let finalSpans := smoothJaAdhesion S merged text maxZhLen kanaPull
  mergeAdjacent finalSpans 200

/-- Embeds the `SegmentItem` model of `app/models/segment.py`. -/
structure SegmentItem where
  start : Nat
  end_ : Nat
  langcode : Lang
  text : List Char
deriving DecidableEq, Repr

/-- Embeds the `TextSegmentsOut` model of `app/models/segment.py`. -/
structure TextSegmentsOut where
  contain_lang : List Lang
  segments : List SegmentItem
deriving DecidableEq, Repr

/-- The `contain_lang` extraction loop of `segment_text`: walk the
segments, keeping a `seen` set, and append each language the first time it
occurs. -/
def containLangOf (segments : List SegmentItem) : List Lang :=
  (segments.foldl
    (fun st seg =>
      if seg.langcode ∈ st.1 then st
      else (st.1 ++ [seg.langcode], st.2 ++ [seg.langcode]))
    (([], []) : List Lang × List Lang)).2

/-- Embeds the public `segment_text` (segmentation.py): run the pure
segmentation with its defaults, filter out blank spans, convert to
`SegmentItem` and collect `contain_lang`. -/
def segmentText (S : Scorer) (text : List Char) : TextSegmentsOut :=
  let spans := (segmentTextPure S text 6 true).filter (fun s => !(s.text.all isSpace))
  let segments := spans.map
    (fun sp => { start := sp.start, end_ := sp.end_, langcode := sp.lang,
                 text := sp.text : SegmentItem })
  { contain_lang := containLangOf segments, segments := segments }

/-! ## Gap backfill (`app/clients/whisperx.py`) -/

/-- A character timestamp row, the `{char, start, end}` dictionaries that
`align` passes through `_fill_leading_equal_division` (and the
`CharTimestamp` model of `app/models/whisperx.py`). -/
structure CharRow where
  char : Char
  start : ℚ
  end_ : ℚ
deriving DecidableEq, Repr

/-- Python `text.find(ch)` for a single character: index of the first
occurrence, `none` when absent. -/
def strFind : List Char → Char → Option Nat
  | [], _ => none
  | c :: rest, ch => if c = ch then some 0 else (strFind rest ch).map (· + 1)

/-- Embeds `_find_first_match_index` (whisperx.py): `text.find(first_char)`
clamped to 0 when the character does not occur. -/
def findFirstMatchIndex (text : List Char) (ch : Char) : Nat :=
  match strFind text ch with
  | some i => i
  | none => 0

/-- Embeds `_fill_leading_equal_division` (whisperx.py): when the first
aligned character starts at `k > 0` and first occurs at index `n > 0` of
the segment text, prepend `n` synthetic rows for the first `n` characters,
each of width `k / n`. -/
def fillLeadingEqualDivision (text : List Char) (alignedChars : List CharRow) :
    List CharRow :=
  match alignedChars with
  | [] => alignedChars
  | first :: _ =>
    let k := first.start
    if k ≤ 0 then alignedChars
    else
      let n := findFirstMatchIndex text first.char
      if n = 0 then alignedChars
      else
        let step := k / (n : ℚ)
        ((List.range n).map
          (fun i => ({ char := text.getD i ' ', start := (i : ℚ) * step,
                       end_ := ((i : ℚ) + 1) * step } : CharRow))) ++ alignedChars

/-! ## Timeline merge (`app/services/pipeline.py`, `app/utils/audio.py`) -/

/-- The WAV parameter triple `(nchannels, sampwidth, framerate)` returned
by `read_wav_params_and_frames`. -/
structure AudioParams where
  nchannels : Nat
  sampwidth : Nat
  framerate : Nat
deriving DecidableEq, Repr

/-- A WAV payload as the pipeline observes it: its parameter triple and its
frame count.  The raw PCM bytes play no role in the verified properties. -/
structure Wav where
  params : AudioParams
  nframes : Nat
deriving DecidableEq, Repr

/-- The duration computed by `read_wav_params_and_frames`:
`nframes / float(framerate or 1)`. -/
def wavDuration (w : Wav) : ℚ :=
  (w.nframes : ℚ) / (((if w.params.framerate = 0 then 1 else w.params.framerate) : Nat) : ℚ)

/-- A globally-timed character row, the dictionaries accumulated in
`flat_rows` by `run_pipeline`. -/
structure GlobalRow where
  char : Char
  start : ℚ
  end_ : ℚ
  lang : Lang
deriving DecidableEq, Repr

/-- The `media_type` field of `TTSConfig` as the pipeline inspects it:
either the supported `wav` or anything else. -/
inductive MediaType where
  | wav
  | other
deriving DecidableEq, Repr

/-- The slice of `TTSConfig` (`app/models/tts.py`) that `run_pipeline`
itself reads; all remaining fields are passed through to the external
synthesiser opaquely. -/
structure TTSConfig where
  mediaType : MediaType
deriving DecidableEq, Repr

/-- The errors `run_pipeline` raises itself: `NotImplementedError` for a
non-WAV media type and `RuntimeError` when WAV parameters still disagree
after resampling. -/
inductive PipeError where
  | notImplemented
  | paramsIrreconcilable
deriving DecidableEq, Repr

/-- The loop state of `run_pipeline`: accumulated frames, the reference
parameters established by the first segment, the global offset in seconds,
and the flat globally-timed rows. -/
structure PipeState where
  framesList : List Wav
  paramsRef : Option AudioParams
  offset : ℚ
  rows : List GlobalRow
deriving DecidableEq, Repr

/-- The external TTS synthesiser `tts_client.get_tts_wav(text, langcode,
config)`, abstracted to the WAV data it returns. -/
abbrev TTSFun := List Char → Lang → TTSConfig → Wav

/-- The external torchaudio-based `resample_wav_bytes`, abstracted to a
function from the input WAV and the target parameters to the output WAV. -/
abbrev ResampleFun := Wav → AudioParams → Wav

/-- The external WhisperX aligner `align_client.align(text, audio,
language_code)`, abstracted to the character rows it returns. -/
abbrev AlignFun := List Char → Wav → Lang → List CharRow

/-- The initial pipeline state: no frames, no reference parameters, offset
0, no rows. -/
def initPipeState : PipeState :=
  { framesList := [], paramsRef := none, offset := 0, rows := [] }

/-- One iteration of the segment loop in `run_pipeline`: synthesise the
segment, establish or check the reference parameters (resampling on
mismatch and failing when the mismatch persists), append the frames, shift
the aligned rows by the current offset, and advance the offset by the
duration of the WAV that was appended. -/
def processSeg (tts : TTSFun) (cfg : TTSConfig) (resample : ResampleFun)
    (align : AlignFun) (st : PipeState) (seg : SegmentItem) :
    Except PipeError PipeState :=
  let wav := tts seg.text seg.langcode cfg
  let resolved : Except PipeError (Wav × AudioParams) :=
    match st.paramsRef with
    | none => Except.ok (wav, wav.params)
    | some ref =>
      if wav.params = ref then Except.ok (wav, ref)
      else
        let wav2 := resample wav ref
        if wav2.params = ref then Except.ok (wav2, ref)
        else Except.error PipeError.paramsIrreconcilable
  match resolved with
  | Except.error e => Except.error e
  | Except.ok (w, ref) =>
    Except.ok
      { framesList := st.framesList ++ [w]
        paramsRef := some ref
        offset := st.offset + wavDuration w
        rows := st.rows ++ (align seg.text w seg.langcode).map
          (fun r => { char := r.char, start := r.start + st.offset,
                      end_ := r.end_ + st.offset, lang := seg.langcode }) }

/-- The segment loop of `run_pipeline`, aborting at the first error. -/
def pipeLoop (tts : TTSFun) (cfg : TTSConfig) (resample : ResampleFun)
    (align : AlignFun) : PipeState → List SegmentItem → Except PipeError PipeState
  | st, [] => Except.ok st
  | st, seg :: rest =>
    match processSeg tts cfg resample align st seg with
    | Except.ok st2 => pipeLoop tts cfg resample align st2 rest
    | Except.error e => Except.error e

/-- Embeds `run_pipeline` (pipeline.py): reject non-WAV media types, then
run the segment loop over the segmentation of the input text.  The final
state carries everything the Python function serialises: `frames_list`
(concatenated into the merged audio), `flat_rows` (the merged character
timeline) and the accumulated offset. -/
def runPipeline (S : Scorer) (tts : TTSFun) (cfg : TTSConfig)
    (resample : ResampleFun) (align : AlignFun) (text : List Char) :
    Except PipeError PipeState :=
  if cfg.mediaType ≠ MediaType.wav then Except.error PipeError.notImplemented
  else pipeLoop tts cfg resample align initPipeState (segmentText S text).segments

/-! ## Adjacency merger: recursion view and structural lemmas -/

/-- Recursive presentation of the `_merge_adjacent` loop: `a` is the last
accumulated span (the one the Python loop mutates in place), `rest` the
spans still to process. -/
def mergeRec (maxLen : Nat) : Span → List Span → List Span
  | a, [] => [a]
  | a, sp :: rest =>
    if canMerge maxLen a sp then mergeRec maxLen (mergeSpans a sp) rest
    else a :: mergeRec maxLen sp rest

theorem mergeFoldStep_concat (maxLen : Nat) (acc : List Span) (a sp : Span) :
    mergeFoldStep maxLen (acc ++ [a]) sp =
      if canMerge maxLen a sp then acc ++ [mergeSpans a sp] else (acc ++ [a]) ++ [sp] := by
  simp [mergeFoldStep, List.getLast?_concat, List.dropLast_concat]

theorem foldl_mergeFoldStep_concat (maxLen : Nat) :
    ∀ (rest acc : List Span) (a : Span),
      rest.foldl (mergeFoldStep maxLen) (acc ++ [a]) = acc ++ mergeRec maxLen a rest := by
  intro rest
  induction rest with
  | nil => intro acc a; simp [mergeRec]
  | cons sp rest ih =>
    intro acc a
    simp only [List.foldl_cons, mergeRec, mergeFoldStep_concat]
    by_cases h : canMerge maxLen a sp
    · simp only [if_pos h, ih]
    · simp only [if_neg h, List.append_assoc, List.singleton_append]
      have := ih (acc ++ [a]) sp
      simpa [List.append_assoc] using this

theorem mergeAdjacent_cons (maxLen : Nat) (a : Span) (rest : List Span) :
    mergeAdjacent (a :: rest) maxLen = mergeRec maxLen a rest := by
  have h0 : mergeFoldStep maxLen [] a = [a] := by simp [mergeFoldStep]
  have := foldl_mergeFoldStep_concat maxLen rest [] a
  simpa [mergeAdjacent, h0] using this

theorem mergeRec_head (maxLen : Nat) :
    ∀ (rest : List Span) (a : Span),
      ∃ hd tl, mergeRec maxLen a rest = hd :: tl ∧ hd.start = a.start ∧
        hd.lang = a.lang ∧ a.text.length ≤ hd.text.length := by
  intro rest
  induction rest with
  | nil => intro a; exact ⟨a, [], rfl, rfl, rfl, le_refl _⟩
  | cons b rest ih =>
    intro a
    by_cases h : canMerge maxLen a b
    · obtain ⟨hd, tl, heq, hstart, hlang, hlen⟩ := ih (mergeSpans a b)
      refine ⟨hd, tl, ?_, ?_, ?_, ?_⟩
      · rw [mergeRec, if_pos h]; exact heq
      · simpa [mergeSpans] using hstart
      · rw [hlang]; simp [mergeSpans, h.1]
      · refine le_trans ?_ hlen
        simp [mergeSpans]
    · exact ⟨a, mergeRec maxLen b rest, by rw [mergeRec, if_neg h], rfl, rfl, le_refl _⟩

theorem mergeRec_chain (maxLen : Nat) :
    ∀ (rest : List Span) (a : Span),
      List.Chain' (fun x y => ¬ canMerge maxLen x y) (mergeRec maxLen a rest) := by
  intro rest
  induction rest with
  | nil => intro a; simp [mergeRec]
  | cons b rest ih =>
    intro a
    by_cases h : canMerge maxLen a b
    · rw [mergeRec, if_pos h]; exact ih (mergeSpans a b)
    · rw [mergeRec, if_neg h]
      obtain ⟨hd, tl, heq, hstart, hlang, hlen⟩ := mergeRec_head maxLen rest b
      rw [heq]
      refine List.chain'_cons.mpr ⟨?_, heq ▸ ih b⟩
      intro hc
      exact h ⟨hc.1.trans hlang, hc.2.1.trans hstart,
        le_trans (Nat.add_le_add_left hlen a.text.length) hc.2.2⟩

theorem mergeRec_of_chain (maxLen : Nat) :
    ∀ (rest : List Span) (a : Span),
      List.Chain' (fun x y => ¬ canMerge maxLen x y) (a :: rest) →
      mergeRec maxLen a rest = a :: rest := by
  intro rest
  induction rest with
  | nil => intro a _; rfl
  | cons b rest ih =>
    intro a hch
    have hab : ¬ canMerge maxLen a b := (List.chain'_cons.mp hch).1
    rw [mergeRec, if_neg hab, ih b (List.chain'_cons.mp hch).2]

theorem mergeAdjacent_of_chain (maxLen : Nat) :
    ∀ (l : List Span), List.Chain' (fun x y => ¬ canMerge maxLen x y) l →
      mergeAdjacent l maxLen = l := by
  intro l hch
  match l with
  | [] => rfl
  | a :: rest => rw [mergeAdjacent_cons]; exact mergeRec_of_chain maxLen rest a hch

theorem mergeRec_join_text (maxLen : Nat) :
    ∀ (rest : List Span) (a : Span),
      ((mergeRec maxLen a rest).map Span.text).flatten =
        a.text ++ ((rest.map Span.text).flatten) := by
  intro rest
  induction rest with
  | nil => intro a; simp [mergeRec]
  | cons b rest ih =>
    intro a
    by_cases h : canMerge maxLen a b
    · rw [mergeRec, if_pos h, ih (mergeSpans a b)]
      simp [mergeSpans]
    · rw [mergeRec, if_neg h]
      simp only [List.map_cons, List.flatten_cons, ih b]

theorem mergeRec_head_start (maxLen : Nat) (rest : List Span) (a : Span) :
    ((mergeRec maxLen a rest).head?).map Span.start = some a.start := by
  obtain ⟨hd, tl, heq, hstart, _, _⟩ := mergeRec_head maxLen rest a
  rw [heq]
  simp [hstart]

theorem mergeRec_last_end (maxLen : Nat) :
    ∀ (rest : List Span) (a : Span),
      ((mergeRec maxLen a rest).getLast?).map Span.end_ =
        ((a :: rest).getLast?).map Span.end_ := by
  intro rest
  induction rest with
  | nil => intro a; rfl
  | cons b rest ih =>
    intro a
    by_cases h : canMerge maxLen a b
    · rw [mergeRec, if_pos h, ih (mergeSpans a b)]
      cases rest with
      | nil => simp [mergeSpans]
      | cons c rest2 => simp [List.getLast?_cons_cons]
    · rw [mergeRec, if_neg h]
      obtain ⟨hd, tl, heq, _, _, _⟩ := mergeRec_head maxLen rest b
      rw [heq, List.getLast?_cons_cons, ← heq, ih b, List.getLast?_cons_cons]

/-- C7: the Adjacency Merger is idempotent: applying `_merge_adjacent` to
its own output (with the same maximum-length cap) returns that output
unchanged. -/
theorem merge_adjacent_idempotent (maxLen : Nat) (spans : List Span) :
    mergeAdjacent (mergeAdjacent spans maxLen) maxLen = mergeAdjacent spans maxLen := by
  match spans with
  | [] => rfl
  | a :: rest =>
    rw [mergeAdjacent_cons]
    exact mergeAdjacent_of_chain maxLen _ (mergeRec_chain maxLen rest a)

/-- C10: the Adjacency Merger preserves content: the concatenation of the
output text fields equals the concatenation of the input text fields, the
first output span keeps the first input start and the last output span
keeps the last input end (stated via `head?` and `getLast?`, which also
covers the empty list). -/
theorem merge_adjacent_preserves_content (maxLen : Nat) (spans : List Span) :
    ((mergeAdjacent spans maxLen).map Span.text).flatten = (spans.map Span.text).flatten ∧
    ((mergeAdjacent spans maxLen).head?).map Span.start = (spans.head?).map Span.start ∧
    ((mergeAdjacent spans maxLen).getLast?).map Span.end_ =
      (spans.getLast?).map Span.end_ := by
  match spans with
  | [] => exact ⟨rfl, rfl, rfl⟩
  | a :: rest =>
    rw [mergeAdjacent_cons]
    refine ⟨?_, ?_, mergeRec_last_end maxLen rest a⟩
    · rw [mergeRec_join_text]; simp
    · rw [mergeRec_head_start]; simp

theorem mixScores_eq_weighted (a b : Span) :
    mixScores a b =
      { zh := (a.scores.zh * ((a.end_ - a.start : Nat) : ℚ) +
               b.scores.zh * ((b.end_ - b.start : Nat) : ℚ)) /
              (((a.end_ - a.start : Nat) : ℚ) + ((b.end_ - b.start : Nat) : ℚ))
        ja := (a.scores.ja * ((a.end_ - a.start : Nat) : ℚ) +
               b.scores.ja * ((b.end_ - b.start : Nat) : ℚ)) /
              (((a.end_ - a.start : Nat) : ℚ) + ((b.end_ - b.start : Nat) : ℚ))
        en := (a.scores.en * ((a.end_ - a.start : Nat) : ℚ) +
               b.scores.en * ((b.end_ - b.start : Nat) : ℚ)) /
              (((a.end_ - a.start : Nat) : ℚ) + ((b.end_ - b.start : Nat) : ℚ)) } := by
  unfold mixScores
  by_cases h : (a.end_ - a.start) + (b.end_ - b.start) = 0
  · have h1 : a.end_ - a.start = 0 := by omega
    have h2 : b.end_ - b.start = 0 := by omega
    simp [h, h1, h2]
  · have hcast : (((a.end_ - a.start) + (b.end_ - b.start) : Nat) : ℚ) =
        ((a.end_ - a.start : Nat) : ℚ) + ((b.end_ - b.start : Nat) : ℚ) := by
      push_cast
      ring
    simp [h, hcast]

/-- C6: two consecutive spans are merged iff they share a language, the
first ends where the second starts, and the combined text length stays
within the cap; the merged scores are the length-weighted average
`(s1 * len1 + s2 * len2) / (len1 + len2)` with lengths `end - start`, and
on a failed guard the first span is emitted and merging restarts from the
second. -/
theorem merge_adjacent_step_spec (maxLen : Nat) (a b : Span) (rest : List Span) :
    ((a.lang = b.lang ∧ a.end_ = b.start ∧ a.text.length + b.text.length ≤ maxLen) →
      mergeAdjacent (a :: b :: rest) maxLen =
        mergeAdjacent
          ({ start := a.start, end_ := b.end_, text := a.text ++ b.text, lang := b.lang,
             scores :=
               { zh := (a.scores.zh * ((a.end_ - a.start : Nat) : ℚ) +
                        b.scores.zh * ((b.end_ - b.start : Nat) : ℚ)) /
                       (((a.end_ - a.start : Nat) : ℚ) + ((b.end_ - b.start : Nat) : ℚ))
                 ja := (a.scores.ja * ((a.end_ - a.start : Nat) : ℚ) +
                        b.scores.ja * ((b.end_ - b.start : Nat) : ℚ)) /
                       (((a.end_ - a.start : Nat) : ℚ) + ((b.end_ - b.start : Nat) : ℚ))
                 en := (a.scores.en * ((a.end_ - a.start : Nat) : ℚ) +
                        b.scores.en * ((b.end_ - b.start : Nat) : ℚ)) /
                       (((a.end_ - a.start : Nat) : ℚ) + ((b.end_ - b.start : Nat) : ℚ)) } }
            :: rest) maxLen) ∧
    (¬ (a.lang = b.lang ∧ a.end_ = b.start ∧ a.text.length + b.text.length ≤ maxLen) →
      mergeAdjacent (a :: b :: rest) maxLen = a :: mergeAdjacent (b :: rest) maxLen) := by
  constructor
  · intro h
    rw [mergeAdjacent_cons, mergeAdjacent_cons, mergeRec,
      if_pos (show canMerge maxLen a b from h)]
    congr 1
    rw [mergeSpans, mixScores_eq_weighted]
  · intro h
    rw [mergeAdjacent_cons, mergeAdjacent_cons, mergeRec,
      if_neg (show ¬ canMerge maxLen a b from h)]

/-- Witness for C6 at concrete spans: a mergeable adjacent pair blends its
scores by length, and a pair with different languages stays split. -/
theorem merge_adjacent_step_spec_witness :
    mergeAdjacent
        [⟨0, 1, ['x'], Lang.en, ⟨1, 0, 0⟩⟩, ⟨1, 3, ['y', 'z'], Lang.en, ⟨0, 1, 0⟩⟩] 200 =
      [⟨0, 3, ['x', 'y', 'z'], Lang.en, ⟨1/3, 2/3, 0⟩⟩] ∧
    mergeAdjacent
        [⟨0, 1, ['x'], Lang.en, ⟨1, 0, 0⟩⟩, ⟨1, 3, ['y', 'z'], Lang.zh, ⟨0, 1, 0⟩⟩] 200 =
      [⟨0, 1, ['x'], Lang.en, ⟨1, 0, 0⟩⟩, ⟨1, 3, ['y', 'z'], Lang.zh, ⟨0, 1, 0⟩⟩] := by
  constructor
  · rw [(merge_adjacent_step_spec 200 ⟨0, 1, ['x'], Lang.en, ⟨1, 0, 0⟩⟩
      ⟨1, 3, ['y', 'z'], Lang.en, ⟨0, 1, 0⟩⟩ []).1 (by refine ⟨rfl, rfl, ?_⟩; decide),
      mergeAdjacent_cons, mergeRec]
    norm_num
  · rw [(merge_adjacent_step_spec 200 ⟨0, 1, ['x'], Lang.en, ⟨1, 0, 0⟩⟩
      ⟨1, 3, ['y', 'z'], Lang.zh, ⟨0, 1, 0⟩⟩ []).2 (by intro hc; exact absurd hc.1 (by decide)),
      mergeAdjacent_cons, mergeRec]

/-! ## Claim C4: gap backfill -/

/-- C4: for a non-empty aligned list with first start `k`: if `k ≤ 0`, or
the first aligned character first occurs at index 0 of the segment text (or
not at all, which `findFirstMatchIndex` also reports as 0), backfill
returns the list unchanged; otherwise it prepends exactly `n` rows for the
first `n` characters, row `i` spanning `[i * k/n, (i+1) * k/n)`, so each
row has width `k/n`, the `n` rows tile `[0, k)` exactly, and the original
rows follow unchanged. -/
theorem fill_leading_gap_spec (text : List Char) (r0 : CharRow) (rest : List CharRow) :
    ((r0.start ≤ 0 ∨ findFirstMatchIndex text r0.char = 0) →
      fillLeadingEqualDivision text (r0 :: rest) = r0 :: rest) ∧
    (0 < r0.start →
      ∀ n, n = findFirstMatchIndex text r0.char → n ≠ 0 →
        fillLeadingEqualDivision text (r0 :: rest) =
          ((List.range n).map (fun i =>
            ({ char := text.getD i ' ',
               start := (i : ℚ) * (r0.start / (n : ℚ)),
               end_ := ((i : ℚ) + 1) * (r0.start / (n : ℚ)) } : CharRow)))
            ++ (r0 :: rest) ∧
        (∀ i : Nat, ((i : ℚ) + 1) * (r0.start / (n : ℚ)) -
            (i : ℚ) * (r0.start / (n : ℚ)) = r0.start / (n : ℚ)) ∧
        ((n : ℚ)) * (r0.start / (n : ℚ)) = r0.start) := by
  constructor
  · intro h
    rcases h with h | h
    · simp only [fillLeadingEqualDivision]
      rw [if_pos h]
    · simp only [fillLeadingEqualDivision]
      by_cases hk : r0.start ≤ 0
      · rw [if_pos hk]
      · rw [if_neg hk, if_pos h]
  · intro hk n hn hne
    refine ⟨?_, ?_, ?_⟩
    · simp only [fillLeadingEqualDivision]
      rw [if_neg (not_le.mpr hk), ← hn, if_neg hne]
    · intro i
      ring
    · rw [mul_comm]
      exact div_mul_cancel₀ r0.start (by exact_mod_cast hne)

/-- Witness for C4 at the concrete input of the claim: the first aligned
row is `d` at 0.9 over the text `abcd`, and backfill prepends rows for
`a`, `b`, `c` of width 0.3 each. -/
theorem fill_leading_gap_witness :
    fillLeadingEqualDivision ['a', 'b', 'c', 'd']
        [{ char := 'd', start := 9/10, end_ := 1 }] =
      [{ char := 'a', start := 0, end_ := 3/10 },
       { char := 'b', start := 3/10, end_ := 3/5 },
       { char := 'c', start := 3/5, end_ := 9/10 },
       { char := 'd', start := 9/10, end_ := 1 }] := by
  have h := (fill_leading_gap_spec
      ['a', 'b', 'c', 'd']
      { char := 'd', start := 9/10, end_ := 1 } []).2
    (by norm_num) 3 (by decide) (by decide)
  rw [h.1]
  norm_num [List.range_succ]

/-! ## Claim C1: `contain_lang` ordering -/

/-- Modelled from the spec sentence for comparison with the code: the
`contain_lang` ordering claimed there is the fixed priority list
`[en, zh, ja]` filtered to the languages present among the segments. -/
def specPriorityContainLang (segments : List SegmentItem) : List Lang :=
  [Lang.en, Lang.zh, Lang.ja].filter
    (fun l => (segments.map SegmentItem.langcode).contains l)

/-- Specification-style description of what the code actually computes:
the input languages in order of first appearance, deduplicated. -/
def firstAppearanceDedup (ls : List Lang) : List Lang :=
  ls.foldl (fun acc l => if l ∈ acc then acc else acc ++ [l]) []

theorem containLangOf_loop (segs : List SegmentItem) :
    ∀ acc : List Lang,
      (segs.foldl
        (fun st seg =>
          if seg.langcode ∈ st.1 then st
          else (st.1 ++ [seg.langcode], st.2 ++ [seg.langcode]))
        (acc, acc)).2 =
      (segs.map SegmentItem.langcode).foldl
        (fun a l => if l ∈ a then a else a ++ [l]) acc := by
  induction segs with
  | nil => intro acc; rfl
  | cons seg segs ih =>
    intro acc
    simp only [List.foldl_cons, List.map_cons]
    by_cases h : seg.langcode ∈ acc
    · rw [if_pos h, if_pos h]
      exact ih acc
    · rw [if_neg h, if_neg h]
      exact ih (acc ++ [seg.langcode])

theorem containLangOf_eq_dedup (segs : List SegmentItem) :
    containLangOf segs = firstAppearanceDedup (segs.map SegmentItem.langcode) :=
  containLangOf_loop segs []

theorem firstAppearanceDedup_aux (ls : List Lang) :
    ∀ acc : List Lang, acc.Nodup →
      ((ls.foldl (fun a l => if l ∈ a then a else a ++ [l]) acc).Nodup ∧
       ∀ l, l ∈ ls.foldl (fun a l => if l ∈ a then a else a ++ [l]) acc ↔
         l ∈ acc ∨ l ∈ ls) := by
  induction ls with
  | nil =>
    intro acc h
    exact ⟨h, by simp⟩
  | cons x ls ih =>
    intro acc h
    simp only [List.foldl_cons]
    by_cases hx : x ∈ acc
    · rw [if_pos hx]
      obtain ⟨h1, h2⟩ := ih acc h
      refine ⟨h1, fun l => ?_⟩
      rw [h2 l]
      constructor
      · rintro (hl | hl)
        · exact Or.inl hl
        · exact Or.inr (List.mem_cons_of_mem x hl)
      · rintro (hl | hl)
        · exact Or.inl hl
        · rcases List.mem_cons.mp hl with hl | hl
          · exact Or.inl (hl ▸ hx)
          · exact Or.inr hl
    · rw [if_neg hx]
      have hnd : (acc ++ [x]).Nodup := by
        simp [List.nodup_append, h, hx]
      obtain ⟨h1, h2⟩ := ih (acc ++ [x]) hnd
      refine ⟨h1, fun l => ?_⟩
      rw [h2 l]
      simp only [List.mem_append, List.mem_singleton, List.mem_cons]
      tauto

/-- C1 (amended): `contain_lang` lists the languages of the output
segments in order of first appearance (one entry per present language, no
duplicates, every present language listed) — not in the fixed
`[en, zh, ja]` priority order. -/
theorem contain_lang_first_appearance (S : Scorer) (text : List Char) :
    (segmentText S text).contain_lang =
      firstAppearanceDedup (((segmentText S text).segments).map SegmentItem.langcode) ∧
    ((segmentText S text).contain_lang).Nodup ∧
    (∀ l, l ∈ (segmentText S text).contain_lang ↔
      l ∈ ((segmentText S text).segments).map SegmentItem.langcode) := by
  have hcl : (segmentText S text).contain_lang =
      containLangOf ((segmentText S text).segments) := rfl
  rw [hcl, containLangOf_eq_dedup]
  obtain ⟨h1, h2⟩ := firstAppearanceDedup_aux
    (((segmentText S text).segments).map SegmentItem.langcode) [] List.nodup_nil
  refine ⟨rfl, h1, fun l => ?_⟩
  rw [firstAppearanceDedup, h2 l]
  simp

/-- C1 counterexample: on the input 你好,hello the code produces the
first-appearance order `[zh, en]`, while the fixed-priority filter the
claim describes yields `[en, zh]`; the claim is therefore false on this
input. -/
theorem contain_lang_counterexample :
    (segmentText (fun _ => ⟨0, 0, 0⟩)
        ['你', '好', ',', 'h', 'e', 'l', 'l', 'o']).contain_lang = [Lang.zh, Lang.en] ∧
    specPriorityContainLang
        (segmentText (fun _ => ⟨0, 0, 0⟩)
          ['你', '好', ',', 'h', 'e', 'l', 'l', 'o']).segments = [Lang.en, Lang.zh] ∧
    ([Lang.zh, Lang.en] : List Lang) ≠ [Lang.en, Lang.zh] := by
  refine ⟨by decide, by decide, by decide⟩

/-! ## Claim C2: per-chunk language labels -/

theorem punct_not_kana (c : Char) (h : isPunct c = true) : isKanaChar c = false := by
  rw [← Bool.not_eq_true]
  simp only [isPunct, Bool.or_eq_true, Bool.and_eq_true, decide_eq_true_eq,
    beq_iff_eq] at h
  simp only [isKanaChar, isHira, isKata, Bool.or_eq_true, Bool.and_eq_true,
    decide_eq_true_eq]
  omega

theorem punct_not_han (c : Char) (h : isPunct c = true) : isHan c = false := by
  rw [← Bool.not_eq_true]
  simp only [isPunct, Bool.or_eq_true, Bool.and_eq_true, decide_eq_true_eq,
    beq_iff_eq] at h
  simp only [isHan, Bool.or_eq_true, Bool.and_eq_true, decide_eq_true_eq, beq_iff_eq]
  omega

theorem punct_not_latin (c : Char) (h : isPunct c = true) : isLatin c = false := by
  rw [← Bool.not_eq_true]
  simp only [isPunct, Bool.or_eq_true, Bool.and_eq_true, decide_eq_true_eq,
    beq_iff_eq] at h
  simp only [isLatin, Bool.or_eq_true, Bool.and_eq_true, decide_eq_true_eq]
  omega

theorem contains_append_punct (xs ct : List Char) (hp : ct.all isPunct = true) :
    containsKana (xs ++ ct) = containsKana xs ∧
    containsHan (xs ++ ct) = containsHan xs ∧
    containsLatin (xs ++ ct) = containsLatin xs := by
  rw [List.all_eq_true] at hp
  have hk : ct.any isKanaChar = false := by
    rw [List.any_eq_false]
    intro c hc
    simp [punct_not_kana c (hp c hc)]
  have hh : ct.any isHan = false := by
    rw [List.any_eq_false]
    intro c hc
    simp [punct_not_han c (hp c hc)]
  have hl : ct.any isLatin = false := by
    rw [List.any_eq_false]
    intro c hc
    simp [punct_not_latin c (hp c hc)]
  refine ⟨?_, ?_, ?_⟩ <;> simp [containsKana, containsHan, containsLatin,
    List.any_append, hk, hh, hl]

/-- The labelling discipline that `_segment_text_pure` actually applies to
each punctuation chunk (and that punctuation absorption preserves): the
stored language is the argmax of the stored scores, Kana forces `ja`, Han
without Kana forces `zh`, Latin without Han or Kana forces `en`. -/
def heuristicLabelled (sp : Span) : Prop :=
  sp.lang = argmaxScores sp.scores ∧
  (containsKana sp.text = true → sp.lang = Lang.ja) ∧
  (containsKana sp.text = false → containsHan sp.text = true → sp.lang = Lang.zh) ∧
  (containsKana sp.text = false → containsHan sp.text = false →
    containsLatin sp.text = true → sp.lang = Lang.en)

theorem heuristicLabelled_detect (S : Scorer) (ct : List Char)
    (cs ce : Nat) :
    heuristicLabelled
      { start := cs, end_ := ce, text := ct,
        lang := (detectLangScores S ct).1, scores := (detectLangScores S ct).2 } := by
  by_cases hk : containsKana ct = true
  · simp only [detectLangScores, hk, if_true]
    refine ⟨by show Lang.ja = argmaxScores { zh := 0, ja := 1, en := 0 }; decide,
      fun _ => rfl, ?_, ?_⟩ <;> · intro hfalse; rw [hk] at hfalse; cases hfalse
  · rw [Bool.not_eq_true] at hk
    by_cases hh : containsHan ct = true
    · simp only [detectLangScores, hk, Bool.false_eq_true, if_false, hh, if_true]
      refine ⟨by show Lang.zh = argmaxScores { zh := 1, ja := 0, en := 0 }; decide,
        ?_, fun _ _ => rfl, ?_⟩
      · intro hfalse; rw [hk] at hfalse; cases hfalse
      · intro _ hfalse; rw [hh] at hfalse; cases hfalse
    · rw [Bool.not_eq_true] at hh
      by_cases hl : containsLatin ct = true
      · simp only [detectLangScores, hk, hh, Bool.false_eq_true, if_false, hl, if_true]
        refine ⟨by show Lang.en = argmaxScores { zh := 0, ja := 0, en := 1 }; decide,
          ?_, ?_, fun _ _ _ => rfl⟩
        · intro hfalse; rw [hk] at hfalse; cases hfalse
        · intro _ hfalse; rw [hh] at hfalse; cases hfalse
      · rw [Bool.not_eq_true] at hl
        simp only [detectLangScores, hk, hh, hl, Bool.false_eq_true, if_false]
        refine ⟨rfl, ?_, ?_, ?_⟩
        · intro hfalse; rw [hk] at hfalse; cases hfalse
        · intro _ hfalse; rw [hh] at hfalse; cases hfalse
        · intro _ _ hfalse; rw [hl] at hfalse; cases hfalse

theorem buildStep_heuristic (S : Scorer) (text : List Char) :
    ∀ (chunks : List (Nat × Nat)) (acc : List Span),
      (∀ sp ∈ acc, heuristicLabelled sp) →
      ∀ sp ∈ chunks.foldl (buildStep S text) acc, heuristicLabelled sp := by
  intro chunks
  induction chunks with
  | nil => intro acc h; simpa using h
  | cons c chunks ih =>
    intro acc h
    simp only [List.foldl_cons]
    apply ih
    intro sp hsp
    by_cases h1 : (slice text c.1 c.2).all isSpace = true
    · simp only [buildStep, h1, if_true] at hsp
      exact h sp hsp
    · rw [Bool.not_eq_true] at h1
      by_cases h2 : (slice text c.1 c.2).all isPunct = true
      · simp only [buildStep, h1, Bool.false_eq_true, if_false, h2, if_true] at hsp
        rcases hl : acc.getLast? with _ | a
        · rw [hl] at hsp
          exact h sp hsp
        · rw [hl] at hsp
          rcases List.mem_append.mp hsp with hm | hm
          · exact h sp ((List.dropLast_sublist acc).subset hm)
          · have ha : a ∈ acc := by
              obtain ⟨hne, heq⟩ :=
                List.mem_getLast?_eq_getLast (show a ∈ acc.getLast? from hl)
              exact heq ▸ List.getLast_mem hne
            obtain ⟨g1, g2, g3, g4⟩ := h a ha
            obtain ⟨e1, e2, e3⟩ :=
              contains_append_punct a.text (slice text c.1 c.2) h2
            rcases List.mem_singleton.mp hm with rfl
            exact ⟨g1, by rw [e1]; exact g2, by rw [e1, e2]; exact g3,
              by rw [e1, e2, e3]; exact g4⟩
      · rw [Bool.not_eq_true] at h2
        simp only [buildStep, h1, h2, Bool.false_eq_true, if_false] at hsp
        rcases List.mem_append.mp hsp with hm | hm
        · exact h sp hm
        · rcases List.mem_singleton.mp hm with rfl
          exact heuristicLabelled_detect S (slice text c.1 c.2) c.1 c.2

/-- C2 (amended): for every span the span-building stage produces from a
punctuation chunk, the language label follows the heuristic priority of the
code — Kana forces `ja`, else Han forces `zh`, else Latin forces `en`, else
the label is the argmax of the fastText scores stored with the span (and in
every case the label is the argmax of the stored scores); the
context-widening scorer `_scores_with_context` plays no part. -/
theorem chunk_label_heuristic (S : Scorer) (text : List Char) :
    ∀ sp ∈ allSpansOf S text, heuristicLabelled sp := by
  intro sp hsp
  exact buildStep_heuristic S text (splitByPunctuation text) []
    (by intro x hx; cases hx) sp hsp

/-- Witness for C2 (amended) on the single-chunk text hello, whose span is
labelled `en` with one-hot Latin scores. -/
theorem chunk_label_heuristic_witness :
    heuristicLabelled
      { start := 0, end_ := 5, text := ['h', 'e', 'l', 'l', 'o'],
        lang := Lang.en, scores := { zh := 0, ja := 0, en := 1 } } :=
  chunk_label_heuristic (fun _ => { zh := 0, ja := 1, en := 0 })
    ['h', 'e', 'l', 'l', 'o']
    { start := 0, end_ := 5, text := ['h', 'e', 'l', 'l', 'o'],
      lang := Lang.en, scores := { zh := 0, ja := 0, en := 1 } }
    (by decide)

/-- C2 counterexample: with a scorer whose distribution always favours
Japanese, the code labels the chunk hello as `en` by the Latin heuristic
while the argmax of `_scores_with_context` over the same chunk is `ja`,
so the produced label is not the argmax of the context-widened scorer. -/
theorem chunk_label_counterexample :
    segmentTextPure (fun _ => { zh := 0, ja := 1, en := 0 })
        ['h', 'e', 'l', 'l', 'o'] 6 true =
      [{ start := 0, end_ := 5, text := ['h', 'e', 'l', 'l', 'o'],
         lang := Lang.en, scores := { zh := 0, ja := 0, en := 1 } }] ∧
    argmaxScores (scoresWithContext (fun _ => { zh := 0, ja := 1, en := 0 })
        ['h', 'e', 'l', 'l', 'o'] 0 5 ['h', 'e', 'l', 'l', 'o'] 15) = Lang.ja ∧
    Lang.en ≠ Lang.ja := by
  refine ⟨by decide, by decide, by decide⟩

/-! ## Claim C8: the punctuation splitter -/

/-- Chunk lists that tile the index interval from `p` to `q`: the first
chunk starts at `p`, each chunk is nonempty and starts where the previous
one ended, and the last chunk ends at `q`. -/
def ChainFrom : Nat → Nat → List (Nat × Nat) → Prop
  | p, q, [] => p = q
  | p, q, c :: rest => p = c.1 ∧ c.1 < c.2 ∧ ChainFrom c.2 q rest

/-- Chunk lists over `text` whose delimiter classes alternate starting with
`b`: the first chunk consists only of characters with `isDelim = b`, the
next only of characters with the opposite class, and so on. -/
def AltFrom (text : List Char) : Bool → List (Nat × Nat) → Prop
  | _, [] => True
  | b, c :: rest => (∀ ch ∈ slice text c.1 c.2, isDelim ch = b) ∧ AltFrom text (!b) rest

theorem slice_extend (text : List Char) (s i : Nat) (c : Char)
    (hsi : s ≤ i) (hget : text[i]? = some c) :
    slice text s (i + 1) = slice text s i ++ [c] := by
  have h1 : i + 1 - s = (i - s) + 1 := by omega
  rw [slice, slice, h1, List.take_succ]
  congr 1
  rw [List.getElem?_drop]
  have h2 : s + (i - s) = i := by omega
  rw [h2, hget]
  rfl

theorem slice_refl_nil (text : List Char) (s : Nat) : slice text s s = [] := by
  simp [slice]

theorem splitByPunctAux_spec (text : List Char) :
    ∀ (rest : List Char) (i start : Nat) (cur : Bool),
      text.drop i = rest → i ≤ text.length → start < i →
      (∀ ch ∈ slice text start i, isDelim ch = cur) →
      ChainFrom start text.length (splitByPunctAux rest i start cur) ∧
      AltFrom text cur (splitByPunctAux rest i start cur) := by
  intro rest
  induction rest with
  | nil =>
    intro i start cur hdrop hle hlt huni
    have hlen : text.length ≤ i := List.drop_eq_nil_iff.mp hdrop
    have hi : i = text.length := by omega
    subst hi
    exact ⟨⟨rfl, hlt, rfl⟩, huni, trivial⟩
  | cons c rest ih =>
    intro i start cur hdrop _ hlt huni
    have hget : text[i]? = some c := by
      have h0 := List.getElem?_drop text i 0
      rw [hdrop] at h0
      simpa using h0.symm
    have hilt : i < text.length := by
      by_contra hcon
      have : text.drop i = [] := List.drop_eq_nil_iff.mpr (by omega)
      rw [hdrop] at this
      cases this
    have hdrop2 : text.drop (i + 1) = rest := by
      have h1 : (text.drop i).drop 1 = text.drop (i + 1) := List.drop_drop 1 i text
      rw [← h1, hdrop]
      rfl
    by_cases hc : isDelim c = cur
    · simp only [splitByPunctAux, if_pos hc]
      apply ih (i + 1) start cur hdrop2 (by omega) (by omega)
      intro ch hch
      rw [slice_extend text start i c (le_of_lt hlt) hget] at hch
      rcases List.mem_append.mp hch with h | h
      · exact huni ch h
      · rcases List.mem_singleton.mp h with rfl
        exact hc
    · simp only [splitByPunctAux, if_neg hc]
      have huni2 : ∀ ch ∈ slice text i (i + 1), isDelim ch = isDelim c := by
        intro ch hch
        rw [show slice text i (i + 1) = slice text i i ++ [c] from
          slice_extend text i i c (le_refl i) hget, slice_refl_nil] at hch
        rcases List.mem_singleton.mp (by simpa using hch) with rfl
        rfl
      obtain ⟨ihc, iha⟩ := ih (i + 1) i (isDelim c) hdrop2 (by omega) (by omega) huni2
      refine ⟨⟨rfl, hlt, ihc⟩, huni, ?_⟩
      have hb : isDelim c = !cur := by
        rcases Bool.eq_false_or_eq_true (isDelim c) with hd | hd <;>
          rcases Bool.eq_false_or_eq_true cur with hcur | hcur <;>
            rw [hd, hcur] at hc ⊢ <;>
              first
                | rfl
                | exact absurd rfl hc
      rw [← hb]
      exact iha

/-- C8 (amended): the splitter cuts at every delimiter-class change and
nowhere else — for nonempty text the chunks tile `[0, len)`, each chunk is
nonempty and uniformly of one delimiter class, and consecutive chunks
alternate classes, so comma-class delimiters are cut exactly like
full-stop-class ones, with no script-bucket condition. -/
theorem split_by_punctuation_runs (text : List Char) (c0 : Char)
    (rest0 : List Char) (h : text = c0 :: rest0) :
    ChainFrom 0 text.length (splitByPunctuation text) ∧
    AltFrom text (isDelim c0) (splitByPunctuation text) := by
  subst h
  simp only [splitByPunctuation]
  apply splitByPunctAux_spec (c0 :: rest0) rest0 1 0 (isDelim c0) rfl (by simp)
    (by omega)
  intro ch hch
  have : ch = c0 := by
    simpa [slice] using hch
  rw [this]

/-- Witness for C8 (amended) on the text a,b: the three chunks tile
`[0, 3)` and alternate between non-delimiter and delimiter runs. -/
theorem split_by_punctuation_runs_witness :
    ChainFrom 0 (['a', ',', 'b'].length) (splitByPunctuation ['a', ',', 'b']) ∧
    AltFrom ['a', ',', 'b'] (isDelim 'a') (splitByPunctuation ['a', ',', 'b']) :=
  split_by_punctuation_runs ['a', ',', 'b'] 'a' [',', 'b'] rfl

/-- C8 counterexample: in a,b the comma sits between two LATIN characters,
equal non-NEUTRAL script buckets, where the claim says no cut happens; the
splitter nevertheless cuts the comma out as its own chunk. -/
theorem split_comma_counterexample :
    splitByPunctuation ['a', ',', 'b'] = [(0, 1), (1, 2), (2, 3)] ∧
    scriptBucket 'a' = Bucket.LATIN ∧
    scriptBucket 'b' = Bucket.LATIN ∧
    scriptBucket 'a' ≠ Bucket.NEUTRAL ∧
    splitByPunctuation ['a', ',', 'b'] ≠ [(0, 3)] := by
  refine ⟨by decide, by decide, by decide, by decide, by decide⟩

/-! ## Claim C9: machinery for segment well-formedness -/

/-- Positions and text agree; the adhesion passes rewrite only `lang` and
`scores`, so they relate their input and output spans by `sameShape`. -/
def sameShape (x y : Span) : Prop :=
  x.start = y.start ∧ x.end_ = y.end_ ∧ x.text = y.text

/-- The well-formedness carried through the segmentation pipeline: positive
extent, at least one non-whitespace character, and a text that is a
subsequence of the source slice (pure-punctuation chunks are absorbed with
their positions, but whitespace-only chunks in between are dropped from the
text, so only a subsequence survives in general). -/
def GoodSpan (text : List Char) (sp : Span) : Prop :=
  sp.start < sp.end_ ∧ (∃ c ∈ sp.text, isSpace c = false) ∧
  sp.text.Sublist (slice text sp.start sp.end_)

theorem slice_append_slice (text : List Char) (a b c : Nat)
    (h1 : a ≤ b) (h2 : b ≤ c) :
    slice text a c = slice text a b ++ slice text b c := by
  rw [slice, slice, slice]
  have h3 : c - a = (b - a) + (c - b) := by omega
  rw [h3, List.take_add]
  congr 1
  rw [List.drop_drop]
  have h4 : a + (b - a) = b := by omega
  rw [h4]

theorem delim_isPunct (c : Char) (h : isDelim c = true) : isPunct c = true := by
  simp only [isDelim, Bool.or_eq_true, beq_iff_eq] at h
  rcases h with ((((((((h | h) | h) | h) | h) | h) | h) | h) | h) <;> subst h <;> decide

theorem delim_not_space (c : Char) (h : isDelim c = true) : isSpace c = false := by
  simp only [isDelim, Bool.or_eq_true, beq_iff_eq] at h
  rcases h with ((((((((h | h) | h) | h) | h) | h) | h) | h) | h) <;> subst h <;> decide

theorem chainFrom_le :
    ∀ (l : List (Nat × Nat)) (p q : Nat), ChainFrom p q l → p ≤ q := by
  intro l
  induction l with
  | nil => intro p q h; exact le_of_eq h
  | cons c rest ih =>
    intro p q h
    obtain ⟨h1, h2, h3⟩ := h
    have := ih c.2 q h3
    omega

theorem slice_ne_nil (text : List Char) (s e : Nat)
    (h1 : s < e) (h2 : e ≤ text.length) : slice text s e ≠ [] := by
  rw [slice]
  intro hnil
  have hlen := congrArg List.length hnil
  simp only [List.length_take, List.length_drop, List.length_nil] at hlen
  omega

/-- Is the head of the remaining chunk list a purely-punctuation chunk?
Delimiter runs always are, which is what lets a dropped whitespace chunk be
healed by the following delimiter merge. -/
def headAllPunct (text : List Char) : List (Nat × Nat) → Bool
  | [] => false
  | c :: _ => (slice text c.1 c.2).all isPunct

/-- Every whitespace-only chunk is immediately followed by a
purely-punctuation chunk (or is last): this is the structural property of
the splitter output that keeps the built spans contiguous. -/
def SpacePunctAdj (text : List Char) : List (Nat × Nat) → Prop
  | [] => True
  | [_] => True
  | c :: c2 :: rest =>
    ((slice text c.1 c.2).all isSpace = true →
      (slice text c2.1 c2.2).all isPunct = true) ∧ SpacePunctAdj text (c2 :: rest)

theorem spacePunctAdj_tail (text : List Char) (c : Nat × Nat)
    (chunks : List (Nat × Nat)) (h : SpacePunctAdj text (c :: chunks)) :
    SpacePunctAdj text chunks := by
  cases chunks with
  | nil => trivial
  | cons c2 rest => exact h.2

theorem spacePunctAdj_of_alt (text : List Char) :
    ∀ (chunks : List (Nat × Nat)) (b : Bool) (p : Nat),
      ChainFrom p text.length chunks → AltFrom text b chunks →
      SpacePunctAdj text chunks := by
  intro chunks
  induction chunks with
  | nil => intro b p _ _; trivial
  | cons c chunks ih =>
    intro b p hch halt
    obtain ⟨hp, hce, hch2⟩ := hch
    obtain ⟨huni, halt2⟩ := halt
    cases chunks with
    | nil => trivial
    | cons c2 rest =>
      refine ⟨?_, ih (!b) c.2 hch2 halt2⟩
      intro hspace
      have hne : slice text c.1 c.2 ≠ [] := by
        apply slice_ne_nil text c.1 c.2 hce
        obtain ⟨hp2, hce2, hch3⟩ := hch2
        have := chainFrom_le rest c2.2 text.length hch3
        omega
      obtain ⟨ch, hchmem⟩ := List.exists_mem_of_ne_nil _ hne
      have hb : b = false := by
        have hd := huni ch hchmem
        have hs := (List.all_eq_true.mp hspace) ch hchmem
        by_contra hbt
        rw [Bool.not_eq_false] at hbt
        rw [hbt] at hd
        rw [delim_not_space ch hd] at hs
        cases hs
      rw [List.all_eq_true]
      intro x hx
      have hxd := halt2.1 x hx
      rw [hb] at hxd
      exact delim_isPunct x (by simpa using hxd)

theorem mem_of_getLast?_eq (l : List Span) (a : Span)
    (h : l.getLast? = some a) : a ∈ l := by
  obtain ⟨hne, heq⟩ := List.mem_getLast?_eq_getLast (show a ∈ l.getLast? from h)
  exact heq ▸ List.getLast_mem hne

theorem build_loop_invariant (S : Scorer) (text : List Char) :
    ∀ (chunks : List (Nat × Nat)) (acc : List Span) (p : Nat),
      ChainFrom p text.length chunks →
      SpacePunctAdj text chunks →
      List.Chain' (fun a b => a.end_ = b.start) acc →
      (∀ sp ∈ acc, GoodSpan text sp) →
      (∀ a, acc.getLast? = some a →
        a.end_ ≤ p ∧ (a.end_ = p ∨ headAllPunct text chunks = true ∨ chunks = [])) →
      List.Chain' (fun a b => a.end_ = b.start) (chunks.foldl (buildStep S text) acc) ∧
      (∀ sp ∈ chunks.foldl (buildStep S text) acc, GoodSpan text sp) := by
  intro chunks
  induction chunks with
  | nil =>
    intro acc p _ _ hchain hgood _
    exact ⟨hchain, hgood⟩
  | cons c chunks ih =>
    intro acc p hcf hadj hchain hgood hlast
    obtain ⟨hps, hse, hcf2⟩ := hcf
    simp only [List.foldl_cons]
    by_cases h1 : (slice text c.1 c.2).all isSpace = true
    · -- whitespace-only chunk: skipped
      have hstep : buildStep S text acc c = acc := by
        simp only [buildStep, h1, if_true]
      rw [hstep]
      apply ih acc c.2 hcf2 (spacePunctAdj_tail text c chunks hadj) hchain hgood
      intro a ha
      obtain ⟨hle, _⟩ := hlast a ha
      refine ⟨by omega, ?_⟩
      cases chunks with
      | nil => exact Or.inr (Or.inr rfl)
      | cons c2 rest =>
        exact Or.inr (Or.inl (by simpa [headAllPunct] using hadj.1 h1))
    · rw [Bool.not_eq_true] at h1
      by_cases h2 : (slice text c.1 c.2).all isPunct = true
      · -- purely-punctuation chunk: merged into the last span, or dropped
        rcases hl : acc.getLast? with _ | a
        · have hstep : buildStep S text acc c = acc := by
            simp only [buildStep, h1, Bool.false_eq_true, if_false, h2, if_true, hl]
          rw [hstep]
          apply ih acc c.2 hcf2 (spacePunctAdj_tail text c chunks hadj) hchain hgood
          intro a ha
          rw [hl] at ha
          cases ha
        · have hstep : buildStep S text acc c = acc.dropLast ++
              [{ a with text := a.text ++ slice text c.1 c.2, end_ := c.2 }] := by
            simp only [buildStep, h1, Bool.false_eq_true, if_false, h2, if_true, hl]
          rw [hstep]
          obtain ⟨hle, _⟩ := hlast a hl
          have hae : a.end_ ≤ c.1 := by omega
          have hgooda := hgood a (mem_of_getLast?_eq acc a hl)
          have hacc : acc.dropLast ++ [a] = acc :=
            List.dropLast_append_getLast? a (show a ∈ acc.getLast? from hl)
          apply ih _ c.2 hcf2 (spacePunctAdj_tail text c chunks hadj)
          · -- chain: only the end of the final span moved
            rw [← hacc] at hchain
            rw [List.chain'_append] at hchain ⊢
            refine ⟨hchain.1, List.chain'_singleton _, ?_⟩
            intro x hx y hy
            simp only [List.head?_cons, Option.mem_def, Option.some.injEq] at hy
            subst hy
            exact hchain.2.2 x hx a rfl
          · -- good spans
            intro sp hsp
            rcases List.mem_append.mp hsp with hm | hm
            · exact hgood sp ((List.dropLast_sublist acc).subset hm)
            · rcases List.mem_singleton.mp hm with rfl
              obtain ⟨g1, ⟨wc, hwc, hwc2⟩, g3⟩ := hgooda
              refine ⟨by simp; omega, ⟨wc, List.mem_append.mpr (Or.inl hwc), hwc2⟩, ?_⟩
              show (a.text ++ slice text c.1 c.2).Sublist (slice text a.start c.2)
              have hd1 : slice text a.start c.2 =
                  slice text a.start a.end_ ++ slice text a.end_ c.2 :=
                slice_append_slice text a.start a.end_ c.2 (le_of_lt g1) (by omega)
              have hd2 : slice text a.end_ c.2 =
                  slice text a.end_ c.1 ++ slice text c.1 c.2 :=
                slice_append_slice text a.end_ c.1 c.2 hae (le_of_lt hse)
              rw [hd1, hd2, ← List.append_assoc]
              exact List.Sublist.append
                (g3.trans (List.sublist_append_left _ _)) (List.Sublist.refl _)
          · -- last span now ends exactly at the chunk end
            intro x hx
            rw [List.getLast?_concat] at hx
            injection hx with hx
            rw [← hx]
            exact ⟨le_refl c.2, Or.inl rfl⟩
      · -- content chunk: appended as a new span
        rw [Bool.not_eq_true] at h2
        have hstep : buildStep S text acc c = acc ++
            [{ start := c.1, end_ := c.2, text := slice text c.1 c.2,
               lang := (detectLangScores S (slice text c.1 c.2)).1,
               scores := (detectLangScores S (slice text c.1 c.2)).2 }] := by
          simp only [buildStep, h1, h2, Bool.false_eq_true, if_false]
        rw [hstep]
        have hlasteq : ∀ a, acc.getLast? = some a → a.end_ = c.1 := by
          intro a ha
          obtain ⟨hle, hor⟩ := hlast a ha
          rcases hor with h | h | h
          · omega
          · rw [show headAllPunct text (c :: chunks) =
                (slice text c.1 c.2).all isPunct from rfl, h2] at h
            cases h
          · cases h
        apply ih _ c.2 hcf2 (spacePunctAdj_tail text c chunks hadj)
        · rw [List.chain'_append]
          refine ⟨hchain, List.chain'_singleton _, ?_⟩
          intro x hx y hy
          simp only [List.head?_cons, Option.mem_def, Option.some.injEq] at hy
          subst hy
          exact hlasteq x hx
        · intro sp hsp
          rcases List.mem_append.mp hsp with hm | hm
          · exact hgood sp hm
          · rcases List.mem_singleton.mp hm with rfl
            refine ⟨hse, ?_, List.Sublist.refl _⟩
            have hx : ∃ x ∈ slice text c.1 c.2, ¬ isSpace x = true := by
              by_contra hcon
              push_neg at hcon
              rw [← List.all_eq_true] at hcon
              rw [hcon] at h1
              cases h1
            obtain ⟨wc, hwc, hwc2⟩ := hx
            exact ⟨wc, hwc, by simpa using hwc2⟩
        · intro x hx
          rw [List.getLast?_concat] at hx
          injection hx with hx
          rw [← hx]
          exact ⟨le_refl c.2, Or.inl rfl⟩

theorem mergeRec_good (text : List Char) (maxLen : Nat) :
    ∀ (rest : List Span) (a : Span),
      List.Chain' (fun x y => x.end_ = y.start) (a :: rest) →
      (∀ sp ∈ a :: rest, GoodSpan text sp) →
      List.Chain' (fun x y => x.end_ = y.start) (mergeRec maxLen a rest) ∧
      (∀ sp ∈ mergeRec maxLen a rest, GoodSpan text sp) := by
  intro rest
  induction rest with
  | nil =>
    intro a _ hgood
    exact ⟨List.chain'_singleton _, hgood⟩
  | cons b rest ih =>
    intro a hchain hgood
    have hab : a.end_ = b.start := (List.chain'_cons.mp hchain).1
    have htail : List.Chain' (fun x y => x.end_ = y.start) (b :: rest) :=
      (List.chain'_cons.mp hchain).2
    by_cases hm : canMerge maxLen a b
    · rw [mergeRec, if_pos hm]
      obtain ⟨g1a, wa, g3a⟩ := hgood a (by simp)
      obtain ⟨g1b, wb, g3b⟩ := hgood b (by simp)
      apply ih (mergeSpans a b)
      · cases rest with
        | nil => exact List.chain'_singleton _
        | cons d rest2 =>
          rw [List.chain'_cons]
          exact ⟨(List.chain'_cons.mp htail).1, (List.chain'_cons.mp htail).2⟩
      · intro sp hsp
        rcases List.mem_cons.mp hsp with rfl | hm2
        · refine ⟨by show a.start < b.end_; omega, ?_, ?_⟩
          · obtain ⟨wc, hwc1, hwc2⟩ := wa
            exact ⟨wc, List.mem_append.mpr (Or.inl hwc1), hwc2⟩
          · show (a.text ++ b.text).Sublist (slice text a.start b.end_)
            have hd : slice text a.start b.end_ =
                slice text a.start a.end_ ++ slice text a.end_ b.end_ :=
              slice_append_slice text a.start a.end_ b.end_ (le_of_lt g1a) (by omega)
            have g3b2 : b.text.Sublist (slice text a.end_ b.end_) := by
              rw [hab]
              exact g3b
            rw [hd]
            exact List.Sublist.append g3a g3b2
        · exact hgood sp (List.mem_cons_of_mem _ (List.mem_cons_of_mem _ hm2))
    · rw [mergeRec, if_neg hm]
      obtain ⟨ihc, ihg⟩ := ih b htail (fun sp hsp => hgood sp (List.mem_cons_of_mem _ hsp))
      obtain ⟨hd, tl, heq, hstart, _, _⟩ := mergeRec_head maxLen rest b
      refine ⟨?_, ?_⟩
      · rw [heq, List.chain'_cons]
        exact ⟨hab.trans hstart.symm, heq ▸ ihc⟩
      · intro sp hsp
        rcases List.mem_cons.mp hsp with rfl | hm2
        · exact hgood sp (by simp)
        · exact ihg sp hm2

theorem mergeAdjacent_good (text : List Char) (maxLen : Nat) (l : List Span)
    (hchain : List.Chain' (fun x y => x.end_ = y.start) l)
    (hgood : ∀ sp ∈ l, GoodSpan text sp) :
    List.Chain' (fun x y => x.end_ = y.start) (mergeAdjacent l maxLen) ∧
    (∀ sp ∈ mergeAdjacent l maxLen, GoodSpan text sp) := by
  cases l with
  | nil =>
    constructor
    · exact List.chain'_nil
    · intro sp hsp
      cases hsp
  | cons a rest =>
    rw [mergeAdjacent_cons]
    exact mergeRec_good text maxLen rest a hchain hgood

theorem sameShape_refl (x : Span) : sameShape x x := ⟨rfl, rfl, rfl⟩

theorem forall₂_sameShape_trans :
    ∀ (l₁ l₂ l₃ : List Span), List.Forall₂ sameShape l₁ l₂ →
      List.Forall₂ sameShape l₂ l₃ → List.Forall₂ sameShape l₁ l₃ := by
  intro l₁ l₂ l₃ h12
  induction h12 generalizing l₃ with
  | nil =>
    intro h23
    cases h23
    exact List.Forall₂.nil
  | cons hxy htail ih =>
    intro h23
    cases h23 with
    | cons hyz htail2 =>
      exact List.Forall₂.cons
        ⟨hxy.1.trans hyz.1, hxy.2.1.trans hyz.2.1, hxy.2.2.trans hyz.2.2⟩
        (ih _ htail2)

theorem forall₂_set_self (fx : List Span) :
    ∀ (i : Nat) (v : Span), sameShape v (fx.getD i dummySpan) →
      List.Forall₂ sameShape (fx.set i v) fx := by
  induction fx with
  | nil =>
    intro i v _
    exact List.Forall₂.nil
  | cons x fx ih =>
    intro i v h
    cases i with
    | zero =>
      exact List.Forall₂.cons h (List.forall₂_same.mpr (fun y _ => sameShape_refl y))
    | succ i =>
      exact List.Forall₂.cons (sameShape_refl x) (ih i v h)

theorem sandwichStep_shape (S : Scorer) (text : List Char) (maxZhLen : Nat)
    (fx : List Span) (i : Nat) :
    List.Forall₂ sameShape (sandwichStep S text maxZhLen fx i) fx := by
  rw [sandwichStep]
  split
  · exact forall₂_set_self fx i _ ⟨rfl, rfl, rfl⟩
  · exact List.forall₂_same.mpr (fun y _ => sameShape_refl y)

theorem kanaPullStep_shape (S : Scorer) (text : List Char) (maxZhLen n : Nat)
    (fx : List Span) (i : Nat) :
    List.Forall₂ sameShape (kanaPullStep S text maxZhLen n fx i) fx := by
  rw [kanaPullStep]
  split
  · exact List.forall₂_same.mpr (fun y _ => sameShape_refl y)
  · split
    · exact forall₂_set_self fx i _ ⟨rfl, rfl, rfl⟩
    · exact List.forall₂_same.mpr (fun y _ => sameShape_refl y)

theorem foldl_shape (step : List Span → Nat → List Span)
    (hstep : ∀ fx i, List.Forall₂ sameShape (step fx i) fx) :
    ∀ (idxs : List Nat) (fx : List Span),
      List.Forall₂ sameShape (idxs.foldl step fx) fx := by
  intro idxs
  induction idxs with
  | nil => intro fx; exact List.forall₂_same.mpr (fun y _ => sameShape_refl y)
  | cons i idxs ih =>
    intro fx
    exact forall₂_sameShape_trans _ _ _ (ih (step fx i)) (hstep fx i)

theorem smoothJaAdhesion_shape (S : Scorer) (spans : List Span)
    (text : List Char) (maxZhLen : Nat) (kanaPull : Bool) :
    List.Forall₂ sameShape (smoothJaAdhesion S spans text maxZhLen kanaPull) spans := by
  rw [smoothJaAdhesion]
  split
  · exact List.forall₂_same.mpr (fun y _ => sameShape_refl y)
  · split
    · exact forall₂_sameShape_trans _ _ _
        (foldl_shape _ (kanaPullStep_shape S text maxZhLen spans.length) _ _)
        (foldl_shape _ (sandwichStep_shape S text maxZhLen) _ spans)
    · exact foldl_shape _ (sandwichStep_shape S text maxZhLen) _ spans

theorem chain_endstart_of_shape :
    ∀ (l₁ l₂ : List Span), List.Forall₂ sameShape l₁ l₂ →
      List.Chain' (fun a b => a.end_ = b.start) l₂ →
      List.Chain' (fun a b => a.end_ = b.start) l₁ := by
  intro l₁ l₂ h
  induction h with
  | nil => intro _; exact List.chain'_nil
  | cons hxy htail ih =>
    intro hch
    cases htail with
    | nil => exact List.chain'_singleton _
    | cons hx2y2 htail2 =>
      rw [List.chain'_cons] at hch ⊢
      refine ⟨?_, ih hch.2⟩
      rw [hxy.2.1, hx2y2.1]
      exact hch.1

theorem good_of_shape (text : List Char) :
    ∀ (l₁ l₂ : List Span), List.Forall₂ sameShape l₁ l₂ →
      (∀ sp ∈ l₂, GoodSpan text sp) → (∀ sp ∈ l₁, GoodSpan text sp) := by
  intro l₁ l₂ h
  induction h with
  | nil =>
    intro _ sp hsp
    cases hsp
  | cons hxy htail ih =>
    intro hg sp hsp
    rcases List.mem_cons.mp hsp with rfl | hm
    · obtain ⟨g1, ⟨wc, hwc1, hwc2⟩, g3⟩ := hg _ (List.mem_cons_self _ _)
      refine ⟨?_, ?_, ?_⟩
      · rw [hxy.1, hxy.2.1]
        exact g1
      · rw [hxy.2.2]
        exact ⟨wc, hwc1, hwc2⟩
      · rw [hxy.2.2, hxy.1, hxy.2.1]
        exact g3
    · exact ih (fun q hq => hg q (List.mem_cons_of_mem _ hq)) sp hm

theorem allSpansOf_good (S : Scorer) (text : List Char) :
    List.Chain' (fun a b => a.end_ = b.start) (allSpansOf S text) ∧
    (∀ sp ∈ allSpansOf S text, GoodSpan text sp) := by
  cases htext : text with
  | nil =>
    constructor
    · exact List.chain'_nil
    · intro sp hsp
      cases hsp
  | cons c0 rest0 =>
    obtain ⟨hcf, halt⟩ := splitByPunctAux_spec (c0 :: rest0) rest0 1 0 (isDelim c0)
      rfl (by simp) (by omega)
      (by
        intro ch hch
        have hc : ch = c0 := by simpa [slice] using hch
        rw [hc])
    have hadj := spacePunctAdj_of_alt (c0 :: rest0) _ (isDelim c0) 0 hcf halt
    rw [allSpansOf]
    simp only [splitByPunctuation]
    apply build_loop_invariant S (c0 :: rest0) _ [] 0 hcf hadj List.chain'_nil
      (by intro sp hsp; cases hsp)
    intro a ha
    cases ha

theorem segmentTextPure_good (S : Scorer) (text : List Char) :
    List.Chain' (fun a b => a.end_ = b.start) (segmentTextPure S text 6 true) ∧
    (∀ sp ∈ segmentTextPure S text 6 true, GoodSpan text sp) := by
  obtain ⟨h1c, h1g⟩ := allSpansOf_good S text
  obtain ⟨h2c, h2g⟩ := mergeAdjacent_good text 200 _ h1c h1g
  have hsh := smoothJaAdhesion_shape S (mergeAdjacent (allSpansOf S text) 200) text 6 true
  have h3c := chain_endstart_of_shape _ _ hsh h2c
  have h3g := good_of_shape text _ _ hsh h2g
  exact mergeAdjacent_good text 200 _ h3c h3g

/-- C9 (amended): the segments returned by `segment_text` are contiguous
and non-overlapping (each starts where the previous one ends) and satisfy
`start < end`; each segment's text is a subsequence of the source slice
`[start, end)`, but not in general equal to it, because whitespace-only
chunks framed by punctuation are dropped from the text while the absorbed
punctuation extends the positions across them. -/
theorem segments_contiguous (S : Scorer) (text : List Char) :
    List.Chain' (fun a b => a.end_ = b.start) (segmentText S text).segments ∧
    ∀ seg ∈ (segmentText S text).segments,
      seg.start < seg.end_ ∧ seg.text.Sublist (slice text seg.start seg.end_) := by
  obtain ⟨hc, hg⟩ := segmentTextPure_good S text
  have hfil : (segmentTextPure S text 6 true).filter
      (fun s => !(s.text.all isSpace)) = segmentTextPure S text 6 true := by
    rw [List.filter_eq_self]
    intro sp hsp
    obtain ⟨_, ⟨wc, hwc, hwc2⟩, _⟩ := hg sp hsp
    have hall : sp.text.all isSpace = false := by
      rw [← Bool.not_eq_true]
      intro hcon
      rw [List.all_eq_true] at hcon
      rw [hcon wc hwc] at hwc2
      cases hwc2
    rw [hall]
    rfl
  have hseg : (segmentText S text).segments =
      (segmentTextPure S text 6 true).map
        (fun sp => { start := sp.start, end_ := sp.end_, langcode := sp.lang,
                     text := sp.text : SegmentItem }) := by
    show ((segmentTextPure S text 6 true).filter
        (fun s => !(s.text.all isSpace))).map _ = _
    rw [hfil]
  rw [hseg]
  constructor
  · rw [List.chain'_map]
    exact hc
  · intro seg hmem
    obtain ⟨sp, hsp, rfl⟩ := List.mem_map.mp hmem
    obtain ⟨g1, _, g3⟩ := hg sp hsp
    exact ⟨g1, g3⟩

/-- Witness for C9 (amended) at the 你好,hello input: the first output
segment spans `[0, 3)` and carries a subsequence of the slice. -/
theorem segments_contiguous_witness :
    (0 : Nat) < 3 ∧
    List.Sublist ['你', '好', ',']
      (slice ['你', '好', ',', 'h', 'e', 'l', 'l', 'o'] 0 3) :=
  (segments_contiguous (fun _ => { zh := 0, ja := 0, en := 0 })
      ['你', '好', ',', 'h', 'e', 'l', 'l', 'o']).2
    { start := 0, end_ := 3, langcode := Lang.zh, text := ['你', '好', ','] }
    (by decide)

/-- C9 counterexample: on a. .x the whitespace-only chunk between the two
delimiter runs is dropped, so the single output segment covers `[0, 5)`
with text a..x, which differs from the source substring a. .x; the claim
that every segment text equals the source substring at `[start, end)` is
therefore false. -/
theorem segments_substring_counterexample :
    (segmentText (fun _ => { zh := 0, ja := 0, en := 0 })
        ['a', '.', ' ', '.', 'x']).segments =
      [{ start := 0, end_ := 5, langcode := Lang.en, text := ['a', '.', '.', 'x'] }] ∧
    slice ['a', '.', ' ', '.', 'x'] 0 5 = ['a', '.', ' ', '.', 'x'] ∧
    (['a', '.', '.', 'x'] : List Char) ≠ ['a', '.', ' ', '.', 'x'] := by
  refine ⟨by decide, by decide, by decide⟩

/-! ## Claims C3 and C5: timeline merge -/

/-- Placeholder segment for out-of-range indexed access in statements. -/
def dummySeg : SegmentItem :=
  { start := 0, end_ := 0, langcode := Lang.en, text := [] }

theorem wavDuration_nonneg (w : Wav) : 0 ≤ wavDuration w := by
  apply div_nonneg
  · exact Nat.cast_nonneg _
  · exact Nat.cast_nonneg _

theorem runPipeline_eq_loop (S : Scorer) (tts : TTSFun) (cfg : TTSConfig)
    (resample : ResampleFun) (align : AlignFun) (text : List Char)
    (hcfg : cfg.mediaType = MediaType.wav) :
    runPipeline S tts cfg resample align text =
      pipeLoop tts cfg resample align initPipeState (segmentText S text).segments := by
  rw [runPipeline, if_neg]
  rw [hcfg]
  simp

theorem processSeg_ok (tts : TTSFun) (cfg : TTSConfig) (resample : ResampleFun)
    (align : AlignFun) (st : PipeState) (seg : SegmentItem) (st2 : PipeState)
    (h : processSeg tts cfg resample align st seg = Except.ok st2) :
    ∃ w ref2, st2 =
      { framesList := st.framesList ++ [w]
        paramsRef := some ref2
        offset := st.offset + wavDuration w
        rows := st.rows ++ (align seg.text w seg.langcode).map
          (fun r => { char := r.char, start := r.start + st.offset,
                      end_ := r.end_ + st.offset, lang := seg.langcode }) } := by
  simp only [processSeg] at h
  split at h
  · cases h
  · injection h with h
    exact ⟨_, _, h.symm⟩

theorem pipeLoop_append (tts : TTSFun) (cfg : TTSConfig) (resample : ResampleFun)
    (align : AlignFun) :
    ∀ (l₁ l₂ : List SegmentItem) (st : PipeState) (st2 : PipeState),
      pipeLoop tts cfg resample align st (l₁ ++ l₂) = Except.ok st2 →
      ∃ stm, pipeLoop tts cfg resample align st l₁ = Except.ok stm ∧
        pipeLoop tts cfg resample align stm l₂ = Except.ok st2 := by
  intro l₁
  induction l₁ with
  | nil =>
    intro l₂ st st2 h
    exact ⟨st, rfl, h⟩
  | cons seg l₁ ih =>
    intro l₂ st st2 h
    rw [List.cons_append, pipeLoop] at h
    rw [pipeLoop]
    rcases hp : processSeg tts cfg resample align st seg with e | st1
    · rw [hp] at h
      cases h
    · rw [hp] at h
      exact ih l₂ st1 st2 h

theorem pipeLoop_inv (tts : TTSFun) (cfg : TTSConfig) (resample : ResampleFun)
    (align : AlignFun) :
    ∀ (segs : List SegmentItem) (st st2 : PipeState),
      pipeLoop tts cfg resample align st segs = Except.ok st2 →
      ∃ ws : List Wav,
        st2.framesList = st.framesList ++ ws ∧
        ws.length = segs.length ∧
        st2.offset = st.offset + (ws.map wavDuration).sum := by
  intro segs
  induction segs with
  | nil =>
    intro st st2 h
    injection h with h
    exact ⟨[], by rw [← h]; simp, rfl, by rw [← h]; simp⟩
  | cons seg segs ih =>
    intro st st2 h
    rw [pipeLoop] at h
    rcases hp : processSeg tts cfg resample align st seg with e | st1
    · rw [hp] at h
      cases h
    · rw [hp] at h
      obtain ⟨w, ref2, hst1⟩ := processSeg_ok tts cfg resample align st seg st1 hp
      obtain ⟨ws, hfr, hlen, hoff⟩ := ih st1 st2 h
      refine ⟨w :: ws, ?_, by simp [hlen], ?_⟩
      · rw [hfr, hst1]
        simp
      · rw [hoff, hst1]
        simp only [List.map_cons, List.sum_cons]
        ring

theorem pipeLoop_rows_bound (tts : TTSFun) (cfg : TTSConfig)
    (resample : ResampleFun) (align : AlignFun)
    (hal : ∀ (t : List Char) (w : Wav) (l : Lang), ∀ r ∈ align t w l,
      0 ≤ r.start ∧ r.start ≤ wavDuration w) :
    ∀ (segs : List SegmentItem) (st st2 : PipeState),
      pipeLoop tts cfg resample align st segs = Except.ok st2 →
      (∀ r ∈ st.rows, r.start ≤ st.offset) →
      (∀ r ∈ st2.rows, r.start ≤ st2.offset) := by
  intro segs
  induction segs with
  | nil =>
    intro st st2 h hb
    injection h with h
    rw [← h]
    exact hb
  | cons seg segs ih =>
    intro st st2 h hb
    rw [pipeLoop] at h
    rcases hp : processSeg tts cfg resample align st seg with e | st1
    · rw [hp] at h
      cases h
    · rw [hp] at h
      obtain ⟨w, ref2, hst1⟩ := processSeg_ok tts cfg resample align st seg st1 hp
      apply ih st1 st2 h
      rw [hst1]
      intro r hr
      simp only [List.mem_append, List.mem_map] at hr
      rcases hr with hr | ⟨r0, hr0, rfl⟩
      · have := hb r hr
        have := wavDuration_nonneg w
        show r.start ≤ st.offset + wavDuration w
        linarith
      · have := (hal seg.text w seg.langcode r0 hr0).2
        show r0.start + st.offset ≤ st.offset + wavDuration w
        linarith

/-- C3: for a successful run, the final offset is the sum of the audio
durations of the per-segment WAVs the run appended (each duration being the
frame count over the frame rate of that segment's own WAV, one WAV per
segment); processing segment `i` extends the run of the first `i` segments
by exactly that segment's WAV, advances the offset by its duration, and
appends that segment's aligned rows shifted by the offset accumulated over
segments `0..i-1`; and when the aligner keeps every row start within its
segment's audio duration, no emitted row starts after the final total
duration. -/
theorem run_pipeline_offsets (S : Scorer) (tts : TTSFun) (cfg : TTSConfig)
    (resample : ResampleFun) (align : AlignFun) (text : List Char) (st : PipeState)
    (h : runPipeline S tts cfg resample align text = Except.ok st) :
    (st.offset = (st.framesList.map wavDuration).sum ∧
     st.framesList.length = (segmentText S text).segments.length) ∧
    (∀ i, i < (segmentText S text).segments.length →
      ∃ sti sti2 w,
        pipeLoop tts cfg resample align initPipeState
            ((segmentText S text).segments.take i) = Except.ok sti ∧
        pipeLoop tts cfg resample align initPipeState
            ((segmentText S text).segments.take (i + 1)) = Except.ok sti2 ∧
        sti.offset = (sti.framesList.map wavDuration).sum ∧
        sti2.framesList = sti.framesList ++ [w] ∧
        sti2.offset = sti.offset + wavDuration w ∧
        sti2.rows = sti.rows ++
          (align ((segmentText S text).segments.getD i dummySeg).text w
              ((segmentText S text).segments.getD i dummySeg).langcode).map
            (fun r => { char := r.char, start := r.start + sti.offset,
                        end_ := r.end_ + sti.offset,
                        lang := ((segmentText S text).segments.getD i dummySeg).langcode })) ∧
    ((∀ (t : List Char) (w : Wav) (l : Lang), ∀ r ∈ align t w l,
        0 ≤ r.start ∧ r.start ≤ wavDuration w) →
      ∀ r ∈ st.rows, r.start ≤ st.offset) := by
  have hcfg : cfg.mediaType = MediaType.wav := by
    by_contra hc
    rw [runPipeline, if_pos hc] at h
    cases h
  have hloop : pipeLoop tts cfg resample align initPipeState
      (segmentText S text).segments = Except.ok st := by
    rw [← runPipeline_eq_loop S tts cfg resample align text hcfg]
    exact h
  refine ⟨?_, ?_, ?_⟩
  · obtain ⟨ws, hfr, hlen, hoff⟩ :=
      pipeLoop_inv tts cfg resample align _ _ _ hloop
    have hfr2 : st.framesList = ws := by simpa [initPipeState] using hfr
    constructor
    · rw [hoff, hfr2]
      simp [initPipeState]
    · rw [hfr2]
      exact hlen
  · intro i hi
    have hloop2 := hloop
    rw [show (segmentText S text).segments =
        (segmentText S text).segments.take (i + 1) ++
          (segmentText S text).segments.drop (i + 1) from
      (List.take_append_drop _ _).symm] at hloop2
    obtain ⟨sti2, h2, _⟩ := pipeLoop_append tts cfg resample align _ _ _ _ hloop2
    have hts : (segmentText S text).segments.take (i + 1) =
        (segmentText S text).segments.take i ++
          [(segmentText S text).segments.getD i dummySeg] := by
      rw [List.take_succ]
      congr 1
      rw [List.getElem?_eq_getElem hi]
      rw [List.getD_eq_getElem _ dummySeg hi]
      rfl
    have h2b := h2
    rw [hts] at h2b
    obtain ⟨sti, h1, hstep⟩ := pipeLoop_append tts cfg resample align _ _ _ _ h2b
    rw [pipeLoop] at hstep
    rcases hp : processSeg tts cfg resample align sti
        ((segmentText S text).segments.getD i dummySeg) with e | st1
    · rw [hp] at hstep
      cases hstep
    · rw [hp] at hstep
      have hst1 : st1 = sti2 := by
        injection (show Except.ok st1 = Except.ok sti2 from hstep)
      subst hst1
      obtain ⟨w, ref2, hshape⟩ := processSeg_ok tts cfg resample align sti _ st1 hp
      obtain ⟨ws, hfr, hlen, hoff⟩ := pipeLoop_inv tts cfg resample align _ _ _ h1
      refine ⟨sti, st1, w, h1, h2, ?_, ?_, ?_, ?_⟩
      · rw [hoff]
        have hfr2 : sti.framesList = ws := by simpa [initPipeState] using hfr
        rw [hfr2]
        simp [initPipeState]
      · rw [hshape]
      · rw [hshape]
      · rw [hshape]
  · intro hal
    apply pipeLoop_rows_bound tts cfg resample align hal _ initPipeState st hloop
    intro r hr
    cases hr

/-- Witness for C3 on a degenerate but fully concrete run with no
segments: the run succeeds and its final offset is the sum of the (empty)
duration list. -/
theorem run_pipeline_offsets_witness :
    ∃ st, runPipeline (fun _ => { zh := 0, ja := 0, en := 0 })
        (fun _ _ _ => { params := { nchannels := 1, sampwidth := 2, framerate := 4 },
                        nframes := 8 })
        { mediaType := MediaType.wav }
        (fun w _ => w) (fun _ _ _ => []) [] = Except.ok st ∧
      st.offset = (st.framesList.map wavDuration).sum :=
  ⟨initPipeState, rfl,
    (run_pipeline_offsets (fun _ => { zh := 0, ja := 0, en := 0 })
      (fun _ _ _ => { params := { nchannels := 1, sampwidth := 2, framerate := 4 },
                      nframes := 8 })
      { mediaType := MediaType.wav }
      (fun w _ => w) (fun _ _ _ => []) [] initPipeState rfl).1.1⟩

/-- A later segment on which the run must abort: its synthesized WAV
parameters differ from the reference and still differ after the resampling
attempt. -/
def badSegment (tts : TTSFun) (cfg : TTSConfig) (resample : ResampleFun)
    (ref : AudioParams) (s : SegmentItem) : Prop :=
  (tts s.text s.langcode cfg).params ≠ ref ∧
  (resample (tts s.text s.langcode cfg) ref).params ≠ ref

theorem processSeg_someRef (tts : TTSFun) (cfg : TTSConfig)
    (resample : ResampleFun) (align : AlignFun) (st : PipeState)
    (seg : SegmentItem) (ref : AudioParams) (hpr : st.paramsRef = some ref) :
    processSeg tts cfg resample align st seg =
      (if (tts seg.text seg.langcode cfg).params = ref then
        Except.ok
          { framesList := st.framesList ++ [tts seg.text seg.langcode cfg]
            paramsRef := some ref
            offset := st.offset + wavDuration (tts seg.text seg.langcode cfg)
            rows := st.rows ++
              (align seg.text (tts seg.text seg.langcode cfg) seg.langcode).map
                (fun r => { char := r.char, start := r.start + st.offset,
                            end_ := r.end_ + st.offset, lang := seg.langcode }) }
      else if (resample (tts seg.text seg.langcode cfg) ref).params = ref then
        Except.ok
          { framesList := st.framesList ++ [resample (tts seg.text seg.langcode cfg) ref]
            paramsRef := some ref
            offset := st.offset +
              wavDuration (resample (tts seg.text seg.langcode cfg) ref)
            rows := st.rows ++
              (align seg.text (resample (tts seg.text seg.langcode cfg) ref)
                  seg.langcode).map
                (fun r => { char := r.char, start := r.start + st.offset,
                            end_ := r.end_ + st.offset, lang := seg.langcode }) }
      else Except.error PipeError.paramsIrreconcilable) := by
  simp only [processSeg, hpr]
  by_cases hw : (tts seg.text seg.langcode cfg).params = ref
  · rw [if_pos hw, if_pos hw]
  · rw [if_neg hw, if_neg hw]
    by_cases hw2 : (resample (tts seg.text seg.langcode cfg) ref).params = ref
    · rw [if_pos hw2, if_pos hw2]
    · rw [if_neg hw2, if_neg hw2]

theorem pipeLoop_error_iff (tts : TTSFun) (cfg : TTSConfig)
    (resample : ResampleFun) (align : AlignFun) :
    ∀ (segs : List SegmentItem) (st : PipeState) (ref : AudioParams),
      st.paramsRef = some ref →
      (pipeLoop tts cfg resample align st segs =
          Except.error PipeError.paramsIrreconcilable ↔
        ∃ s ∈ segs, badSegment tts cfg resample ref s) := by
  intro segs
  induction segs with
  | nil =>
    intro st ref hpr
    constructor
    · intro h
      cases h
    · rintro ⟨s, hs, _⟩
      cases hs
  | cons seg rest ih =>
    intro st ref hpr
    rw [pipeLoop]
    by_cases hbad : badSegment tts cfg resample ref seg
    · rw [processSeg_someRef tts cfg resample align st seg ref hpr,
        if_neg hbad.1, if_neg hbad.2]
      constructor
      · intro _
        exact ⟨seg, List.mem_cons_self _ _, hbad⟩
      · intro _
        rfl
    · have hok : ∃ st1, processSeg tts cfg resample align st seg = Except.ok st1 ∧
          st1.paramsRef = some ref := by
        rw [processSeg_someRef tts cfg resample align st seg ref hpr]
        by_cases hw : (tts seg.text seg.langcode cfg).params = ref
        · rw [if_pos hw]
          exact ⟨_, rfl, rfl⟩
        · have hw2 : (resample (tts seg.text seg.langcode cfg) ref).params = ref := by
            by_contra hw2
            exact hbad ⟨hw, hw2⟩
          rw [if_neg hw, if_pos hw2]
          exact ⟨_, rfl, rfl⟩
      obtain ⟨st1, hp, hpr1⟩ := hok
      rw [hp, ih st1 ref hpr1]
      constructor
      · rintro ⟨s, hs, hb⟩
        exact ⟨s, List.mem_cons_of_mem _ hs, hb⟩
      · rintro ⟨s, hs, hb⟩
        rcases List.mem_cons.mp hs with rfl | hs2
        · exact absurd hb hbad
        · exact ⟨s, hs2, hb⟩

theorem pipeLoop_frames (tts : TTSFun) (cfg : TTSConfig)
    (resample : ResampleFun) (align : AlignFun) :
    ∀ (segs : List SegmentItem) (st : PipeState) (ref : AudioParams)
      (st2 : PipeState),
      st.paramsRef = some ref →
      pipeLoop tts cfg resample align st segs = Except.ok st2 →
      st2.paramsRef = some ref ∧
      st2.framesList = st.framesList ++ segs.map (fun s =>
        if (tts s.text s.langcode cfg).params = ref then tts s.text s.langcode cfg
        else resample (tts s.text s.langcode cfg) ref) := by
  intro segs
  induction segs with
  | nil =>
    intro st ref st2 hpr h
    injection h with h
    rw [← h]
    exact ⟨hpr, by simp⟩
  | cons seg rest ih =>
    intro st ref st2 hpr h
    rw [pipeLoop, processSeg_someRef tts cfg resample align st seg ref hpr] at h
    by_cases hw : (tts seg.text seg.langcode cfg).params = ref
    · rw [if_pos hw] at h
      obtain ⟨hpr2, hfr⟩ := ih _ ref st2 rfl h
      refine ⟨hpr2, ?_⟩
      rw [hfr]
      simp [hw]
    · rw [if_neg hw] at h
      by_cases hw2 : (resample (tts seg.text seg.langcode cfg) ref).params = ref
      · rw [if_pos hw2] at h
        obtain ⟨hpr2, hfr⟩ := ih _ ref st2 rfl h
        refine ⟨hpr2, ?_⟩
        rw [hfr]
        simp [hw]
      · rw [if_neg hw2] at h
        cases h

/-- C5: after the first segment fixes the reference parameters, a later
segment whose WAV parameters differ is passed through the resampler, and
the run aborts with `ParamsIrreconcilable` (returning no state at all) if
and only if some later segment still mismatches after the resampling
attempt; on success the appended WAV of every later segment is its own WAV
when the parameters already match and the resampled WAV otherwise. -/
theorem run_pipeline_params (S : Scorer) (tts : TTSFun) (cfg : TTSConfig)
    (resample : ResampleFun) (align : AlignFun) (text : List Char)
    (hcfg : cfg.mediaType = MediaType.wav) (s₀ : SegmentItem)
    (rest : List SegmentItem)
    (hsegs : (segmentText S text).segments = s₀ :: rest) :
    (runPipeline S tts cfg resample align text =
        Except.error PipeError.paramsIrreconcilable ↔
      ∃ s ∈ rest,
        badSegment tts cfg resample (tts s₀.text s₀.langcode cfg).params s) ∧
    (∀ st, runPipeline S tts cfg resample align text = Except.ok st →
      st.paramsRef = some (tts s₀.text s₀.langcode cfg).params ∧
      st.framesList = tts s₀.text s₀.langcode cfg :: rest.map (fun s =>
        if (tts s.text s.langcode cfg).params = (tts s₀.text s₀.langcode cfg).params
        then tts s.text s.langcode cfg
        else resample (tts s.text s.langcode cfg)
          (tts s₀.text s₀.langcode cfg).params)) := by
  obtain ⟨st1, hp0, hpr1, hfr1⟩ :
      ∃ st1, processSeg tts cfg resample align initPipeState s₀ = Except.ok st1 ∧
        st1.paramsRef = some (tts s₀.text s₀.langcode cfg).params ∧
        st1.framesList = [tts s₀.text s₀.langcode cfg] := ⟨_, rfl, rfl, rfl⟩
  have hrun : runPipeline S tts cfg resample align text =
      pipeLoop tts cfg resample align st1 rest := by
    rw [runPipeline_eq_loop S tts cfg resample align text hcfg, hsegs, pipeLoop, hp0]
  constructor
  · rw [hrun]
    exact pipeLoop_error_iff tts cfg resample align rest st1
      (tts s₀.text s₀.langcode cfg).params hpr1
  · intro st h
    rw [hrun] at h
    obtain ⟨hpr2, hfr2⟩ := pipeLoop_frames tts cfg resample align rest st1
      (tts s₀.text s₀.langcode cfg).params st hpr1 h
    refine ⟨hpr2, ?_⟩
    rw [hfr2, hfr1]
    rfl

/-- Witness for C5 at a concrete two-segment run (你好,hello with a
synthesiser that emits 16 kHz audio for zh and 24 kHz for en, and a
resampler that returns its input unchanged): the en segment still
mismatches after resampling, so the run aborts with the
parameters-irreconcilable error. -/
theorem run_pipeline_params_witness :
    runPipeline (fun _ => { zh := 0, ja := 0, en := 0 })
        (fun _ l _ =>
          if l = Lang.en then
            { params := { nchannels := 1, sampwidth := 2, framerate := 24000 },
              nframes := 0 }
          else
            { params := { nchannels := 1, sampwidth := 2, framerate := 16000 },
              nframes := 0 })
        { mediaType := MediaType.wav } (fun w _ => w) (fun _ _ _ => [])
        ['你', '好', ',', 'h', 'e', 'l', 'l', 'o'] =
      Except.error PipeError.paramsIrreconcilable :=
  (run_pipeline_params (fun _ => { zh := 0, ja := 0, en := 0 })
      (fun _ l _ =>
        if l = Lang.en then
          { params := { nchannels := 1, sampwidth := 2, framerate := 24000 },
            nframes := 0 }
        else
          { params := { nchannels := 1, sampwidth := 2, framerate := 16000 },
            nframes := 0 })
      { mediaType := MediaType.wav } (fun w _ => w) (fun _ _ _ => [])
      ['你', '好', ',', 'h', 'e', 'l', 'l', 'o'] rfl
      { start := 0, end_ := 3, langcode := Lang.zh, text := ['你', '好', ','] }
      [{ start := 3, end_ := 8, langcode := Lang.en,
         text := ['h', 'e', 'l', 'l', 'o'] }]
      (by decide)).1.mpr
    ⟨{ start := 3, end_ := 8, langcode := Lang.en,
       text := ['h', 'e', 'l', 'l', 'o'] },
      List.mem_cons_self _ _, by decide, by decide⟩

end HoloLang
